import Mathlib

/-
Verification of the department-hierarchy engine (src/app.py).

Embedding notes.  Python mutates `DepartmentNode` objects in place, and the
same object is shared between the name-to-node dictionary `self.nodes`, the
`children` lists of other nodes, and the `self.root` reference.  Every node is
registered in the dictionary under its globally unique `name`, so an object
reference is represented here by that name.  The two updates that Python
performs through object aliasing are made explicit:
  - a rename (`node.name = new_name`) is immediately visible through every
    `children` list holding the object and through `self.root`; here the
    rename rewrites the stored child names and the stored root name; the
    source's own fixup loop over child entries is transcribed as part of this
    rewrite (in Python it compares `c.name == name` after the shared object
    has already been renamed, so the aliased references are the ones updated);
  - `self.root.name == name` in `delete` reads the root object's current name,
    which equals the stored root name under this representation.
Numbers: `employees` is handled with Python `int` (modelled by Int) and
`budget`/`perf` with Python `float` (modelled by Rat; the program only stores
and compares these values, it never does arithmetic on them, so exact
rationals stand in for binary64 values).  Values arriving from the JSON layer
for the numeric fields may be integers, floats or strings;
`int(...)`/`float(...)` coercion is modelled by `pyInt`/`pyFloat` below.
String parsing follows CPython's grammar for finite decimal literals:
whitespace padding, an optional sign, underscore group separators (PEP 515),
a fractional part and an `e`/`E` exponent.  Two deliberate limits of the
rational value domain: literals naming the non-finite floats (`inf`,
`infinity`, `nan`), which `float()` also coerces, have no `Rat` image — the
one claim whose statement they touch (C8) excludes them explicitly via
`infNanValue` — and the non-ASCII digit and whitespace characters CPython
additionally accepts are not modelled.
-/

namespace DeptApp

/-- One department record: metadata plus the ordered sequence of children
(child object references, represented by the children's unique names). -/
structure DeptNode where
  name : String
  head : String
  employees : Int
  budget : Rat
  perf : Rat
  children : List String
deriving DecidableEq, Repr

/-- A JSON value supplied for a numeric field of `edit`. -/
inductive Value where
  | int (n : Int)
  | float (q : Rat)
  | str (s : String)
deriving DecidableEq, Repr

/-- The `DepartmentHierarchy` state: optional root reference and the
insertion-ordered name-to-node dictionary. -/
structure State where
  root : Option String
  nodes : List (String × DeptNode)
deriving DecidableEq, Repr

/-- Python dict lookup (`self.nodes.get(k)` / `self.nodes[k]`). -/
def dictGet (d : List (String × DeptNode)) (k : String) : Option DeptNode :=
  match d with
  | [] => none
  | (k', v) :: rest => if k' = k then some v else dictGet rest k

/-- Python `k in self.nodes`. -/
def dictMem (d : List (String × DeptNode)) (k : String) : Bool :=
  (dictGet d k).isSome

/-- Python `self.nodes[k] = v`: overwrite in place if the key exists, else
append (insertion order of a Python dict). -/
def dictSet (d : List (String × DeptNode)) (k : String) (v : DeptNode) :
    List (String × DeptNode) :=
  if dictMem d k then d.map (fun kv => if kv.1 = k then (k, v) else kv)
  else d ++ [(k, v)]

/-- Python `del self.nodes[k]`. -/
def dictDel (d : List (String × DeptNode)) (k : String) : List (String × DeptNode) :=
  d.filter (fun kv => kv.1 != k)

/-- Apply `f` to every stored node (`for node in self.nodes.values(): ...`). -/
def dictMapVals (d : List (String × DeptNode)) (f : DeptNode → DeptNode) :
    List (String × DeptNode) :=
  d.map (fun kv => (kv.1, f kv.2))

/-- The key set of the mapping, in insertion order. -/
def keys (s : State) : List String := s.nodes.map Prod.fst

/-- All child references of all stored nodes, concatenated in dictionary
order. -/
def allChildNames (s : State) : List String :=
  (s.nodes.map (fun kv => kv.2.children)).flatten

def State.empty : State := ⟨none, []⟩

/-- Python truthiness of the optional `parent` argument (`if not parent`):
`None` and the empty string are falsy. -/
def parentFalsy : Option String → Bool
  | none => true
  | some p => p == ""

/-- `DepartmentHierarchy.add` (src/app.py lines 23-39).  Returns the new state
and the boolean result. -/
def State.add (s : State) (name : String) (parent : Option String)
    (head : String) (employees : Int) (budget perf : Rat) : State × Bool :=
  if dictMem s.nodes name then (s, false)
  else
    let newNode : DeptNode := ⟨name, head, employees, budget, perf, []⟩
    let nodes1 := dictSet s.nodes name newNode
    -- `if not parent: ...` — become root only when no root exists; the node
    -- stays registered in the mapping either way
    let rootCase : State × Bool :=
      if s.root.isNone then ({ root := some name, nodes := nodes1 }, true)
      else ({ s with nodes := nodes1 }, true)
    match parent with
    | none => rootCase
    | some p =>
      if p = "" then rootCase
      else
        -- `parent_node = self.nodes.get(parent)` on the dict that already
        -- contains the new node
        match dictGet nodes1 p with
        | some pn =>
            ({ s with nodes := dictSet nodes1 p { pn with children := pn.children ++ [name] } },
             true)
        | none => rootCase

/-- `DepartmentHierarchy.find_parent_and_remove` (lines 41-43): drop every
child entry whose name matches. -/
def State.find_parent_and_remove (s : State) (name : String) : State :=
  { s with
    nodes := dictMapVals s.nodes
      (fun n => { n with children := n.children.filter (fun c => c != name) }) }

/-- Length of `allChildNames`; bounds the number of iterations of the
`to_delete` worklist loop. -/
def totalChildCount (s : State) : Nat := (allChildNames s).length

/-- The `to_delete` worklist loop of `delete` (lines 54-62): process entries
left to right, appending the children of each found node.  `acc` holds the
already-processed prefix; the fuel bounds the number of iterations (shown
sufficient under the structural invariant). -/
def bfsLoop (s : State) : Nat → List String → List String → List String
  | _, [], acc => acc
  | 0, pending, acc => acc ++ pending
  | Nat.succ fuel, cur :: rest, acc =>
      match dictGet s.nodes cur with
      | some n => bfsLoop s fuel (rest ++ n.children) (acc ++ [cur])
      | none => bfsLoop s fuel rest (acc ++ [cur])

/-- `DepartmentHierarchy.delete` (lines 45-66). -/
def State.delete (s : State) (name : String) : State × Bool :=
  if dictMem s.nodes name then
    -- `if self.root and self.root.name == name: self.root = None`
    let s0 : State := if s.root = some name then { s with root := none } else s
    let s1 := s0.find_parent_and_remove name
    let td := bfsLoop s1 (1 + totalChildCount s1) [name] []
    ({ s1 with nodes := s1.nodes.filter (fun kv => !td.contains kv.1) }, true)
  else (s, false)

/-- Truncation toward zero, Python `int(float)`. -/
def truncRat (q : Rat) : Int := if 0 ≤ q then q.floor else -((-q).floor)

/-- Accumulate a decimal digit string as a natural number. -/
def digitsToNat (cs : List Char) : Nat :=
  cs.foldl (fun a c => a * 10 + (c.toNat - 48)) 0

/-- The ASCII whitespace characters `int()`/`float()` allow as padding
around a numeric string. -/
def isPyWS (c : Char) : Bool :=
  c == ' ' || c == '\t' || c == '\n' || c == '\r' || c == '\x0b' || c == '\x0c'

/-- Strip whitespace padding (`int("  12  ")` and `float(" 1.5 ")` succeed). -/
def stripWS (cs : List Char) : List Char :=
  ((cs.dropWhile isPyWS).reverse.dropWhile isPyWS).reverse

/-- Consume an optional leading sign; `true` means negative. -/
def splitSign : List Char → Bool × List Char
  | '-' :: rest => (true, rest)
  | '+' :: rest => (false, rest)
  | cs => (false, cs)

/-- A nonempty run of decimal digits with single underscores between digits
(PEP 515, accepted by `int()` and `float()`): splitting on underscores must
leave only nonempty all-digit groups.  Returns the digits with the
underscores removed. -/
def undDigits (cs : List Char) : Option (List Char) :=
  if !cs.isEmpty && (cs.splitOn '_').all (fun g => !g.isEmpty && g.all Char.isDigit)
  then some (cs.filter (fun c => c != '_')) else none

/-- Python `int(str)`: optional whitespace padding and sign, then an
underscore-separated decimal digit run. -/
def pyIntOfStr (str : String) : Option Int :=
  let sb := splitSign (stripWS str.toList)
  (undDigits sb.2).map (fun ds =>
    if sb.1 then -(digitsToNat ds : Int) else (digitsToNat ds : Int))

/-- After stripping padding and sign, the literal names one of the
non-finite floats (`inf`, `infinity`, `nan`, case-insensitive), which
`float()` accepts but which have no rational value (header note). -/
def infNanStr (str : String) : Bool :=
  let body := (splitSign (stripWS str.toList)).2.map Char.toLower
  body == "inf".toList || body == "infinity".toList || body == "nan".toList

/-- The value is a string naming a non-finite float. -/
def infNanValue : Value → Bool
  | .str s => infNanStr s
  | _ => false

/-- Decimal digits with an optional fractional part, as a rational. -/
def ratOfDigits (intPart fracPart : List Char) : Rat :=
  (digitsToNat intPart : Rat) +
    (digitsToNat fracPart : Rat) / ((10 : Rat) ^ fracPart.length)

/-- Python `float(str)` on finite literals: optional whitespace padding and
sign, then a decimal significand (`12`, `12.`, `12.5`, `.5`, with PEP 515
underscores inside each digit run) and an optional `e`/`E` exponent.
Literals naming the non-finite floats return `none` here: they lie outside
the rational value domain of this embedding (header note) and the one claim
they touch excludes them through `infNanValue`. -/
def pyFloatOfStr (str : String) : Option Rat :=
  let mantissa : List Char → Option Rat := fun cs =>
    match cs.splitOn '.' with
    | [ip] => (undDigits ip).map (fun ds => (digitsToNat ds : Rat))
    | [ip, fp] =>
        if ip.isEmpty then (undDigits fp).map (fun fs => ratOfDigits [] fs)
        else if fp.isEmpty then (undDigits ip).map (fun ds => (digitsToNat ds : Rat))
        else
          match undDigits ip, undDigits fp with
          | some ds, some fs => some (ratOfDigits ds fs)
          | _, _ => none
    | _ => none
  let withExp : List Char → List Char → Option Rat := fun mc ec =>
    let se := splitSign ec
    match mantissa mc, undDigits se.2 with
    | some m, some es =>
        some (if se.1 then m / (10 : Rat) ^ digitsToNat es
              else m * (10 : Rat) ^ digitsToNat es)
    | _, _ => none
  let sb := splitSign (stripWS str.toList)
  let core : Option Rat :=
    match sb.2.splitOn 'e' with
    | [_] =>
        match sb.2.splitOn 'E' with
        | [_] => mantissa sb.2
        | [mc, ec] => withExp mc ec
        | _ => none
    | [mc, ec] => withExp mc ec
    | _ => none
  core.map (fun q => if sb.1 then -q else q)

/-- Python `int(value)` on a JSON value: `none` means `ValueError`. -/
def pyInt : Value → Option Int
  | .int n => some n
  | .float q => some (truncRat q)
  | .str s => pyIntOfStr s

/-- Python `float(value)` on a JSON value: `none` means `ValueError`. -/
def pyFloat : Value → Option Rat
  | .int n => some n
  | .float q => some q
  | .str s => pyFloatOfStr s

/-- Outcome of `edit`: Python returns `False` for an unknown name and for a
rename collision, `True` on success, and raises `ValueError` when a numeric
coercion fails. -/
inductive EditResult where
  | success
  | notFound
  | nameConflict
  | valError
deriving DecidableEq, Repr

/-- Store the in-place-mutated node object back under its key. -/
def updateNode (s : State) (name : String) (n : DeptNode) : State :=
  { s with nodes := dictSet s.nodes name n }

/-- `if head is not None: node.head = head`. -/
def stepHead (sn : State × DeptNode) (name : String) (head : Option String) :
    State × DeptNode :=
  match head with
  | none => sn
  | some h =>
      let n := { sn.2 with head := h }
      (updateNode sn.1 name n, n)

/-- `if employees is not None: node.employees = int(employees)`; a failed
coercion raises, leaving the updates made so far in place. -/
def stepEmployees (sn : State × DeptNode) (name : String) (v? : Option Value) :
    Except State (State × DeptNode) :=
  match v? with
  | none => .ok sn
  | some v =>
      match pyInt v with
      | none => .error sn.1
      | some k =>
          let n := { sn.2 with employees := k }
          .ok (updateNode sn.1 name n, n)

/-- `if budget is not None: node.budget = float(budget)`. -/
def stepBudget (sn : State × DeptNode) (name : String) (v? : Option Value) :
    Except State (State × DeptNode) :=
  match v? with
  | none => .ok sn
  | some v =>
      match pyFloat v with
      | none => .error sn.1
      | some q =>
          let n := { sn.2 with budget := q }
          .ok (updateNode sn.1 name n, n)

/-- `if perf is not None: node.perf = float(perf)`. -/
def stepPerf (sn : State × DeptNode) (name : String) (v? : Option Value) :
    Except State (State × DeptNode) :=
  match v? with
  | none => .ok sn
  | some v =>
      match pyFloat v with
      | none => .error sn.1
      | some q =>
          let n := { sn.2 with perf := q }
          .ok (updateNode sn.1 name n, n)

/-- The rename block of `edit` (lines 81-89), reached with `new_name` truthy,
different from `name`, and not yet in the mapping: set the node's name, move
the dictionary entry from the old key to the new one, and update the aliased
references (child entries and the root reference) from the old name to the
new one. -/
def applyRename (s : State) (oldName newName : String) : State :=
  match dictGet s.nodes oldName with
  | none => s
  | some node =>
      let node' := { node with name := newName }
      let nodes1 := dictDel (dictSet s.nodes newName node') oldName
      let nodes2 := dictMapVals nodes1
        (fun n => { n with children := n.children.map (fun c => if c = oldName then newName else c) })
      { root := if s.root = some oldName then some newName else s.root, nodes := nodes2 }

/-- The reparent block of `edit` (lines 90-99): detach the node from every
parent, then either attach it to the resolved parent or (when the parent is
empty or unknown) make it root only if no root exists. -/
def State.doReparent (s : State) (curName parent : String) : State :=
  let s1 := s.find_parent_and_remove curName
  if parent = "" ∨ dictMem s1.nodes parent = false then
    if s1.root.isNone then { s1 with root := some curName } else s1
  else
    match dictGet s1.nodes parent with
    | some pn =>
        { s1 with nodes := dictSet s1.nodes parent { pn with children := pn.children ++ [curName] } }
    | none => s1

/-- `if parent is not None: ...` of `edit`, followed by `return True`. -/
def editReparent (s : State) (curName : String) (parent : Option String) :
    State × EditResult :=
  match parent with
  | none => (s, .success)
  | some p => (s.doReparent curName p, .success)

/-- The rename-then-reparent tail of `edit` (lines 77-100).  `if new_name and
new_name != name:` guards the rename; a collision returns `False` with the
field updates already applied. -/
def editRename (s : State) (name : String) (new_name : Option String)
    (parent : Option String) : State × EditResult :=
  match new_name with
  | some nn =>
      if nn ≠ "" ∧ nn ≠ name then
        if dictMem s.nodes nn then (s, .nameConflict)
        else editReparent (applyRename s name nn) nn parent
      else editReparent s name parent
  | none => editReparent s name parent

/-- `DepartmentHierarchy.edit` (lines 68-100). -/
def State.edit (s : State) (name : String) (new_name : Option String)
    (head : Option String) (employees budget perf : Option Value)
    (parent : Option String) : State × EditResult :=
  match dictGet s.nodes name with
  | none => (s, .notFound)
  | some node0 =>
      let sn0 := stepHead (s, node0) name head
      match stepEmployees sn0 name employees with
      | .error se => (se, .valError)
      | .ok sn1 =>
          match stepBudget sn1 name budget with
          | .error se => (se, .valError)
          | .ok sn2 =>
              match stepPerf sn2 name perf with
              | .error se => (se, .valError)
              | .ok sn3 => editRename sn3.1 name new_name parent

/-- The nested structure produced by `to_dict`: `{}` for a missing root, else
name, metadata and the serialized children in order. -/
inductive DTree where
  | empty : DTree
  | node (name head : String) (employees : Int) (budget perf : Rat)
      (children : List DTree) : DTree
deriving Repr

/-- One step of `to_dict` (lines 102-114) on the node referenced by `name`.
The fuel bounds the recursion depth (Python recurses on the object graph;
under the structural invariant the depth is at most the number of nodes). -/
def toDictNode (s : State) : Nat → String → DTree
  | 0, _ => DTree.empty
  | Nat.succ fuel, name =>
      match dictGet s.nodes name with
      | none => DTree.empty
      | some n =>
          DTree.node n.name n.head n.employees n.budget n.perf
            (n.children.map (toDictNode s fuel))

/-- `DepartmentHierarchy.to_dict()` from the root; `{}` when no root exists. -/
def State.to_dict (s : State) : DTree :=
  match s.root with
  | none => DTree.empty
  | some r => toDictNode s (s.nodes.length + 1) r

mutual
/-- The reconstruction pass of `load_data` (lines 188-198): re-run `add`
depth-first over the nested structure, root first, each child with its
parent's name. -/
def buildTree : DTree → Option String → State → State
  | .empty, _, s => s
  | .node nm hd emp bud pf cs, parent, s =>
      buildTreeList cs (some nm) ((s.add nm parent hd emp bud pf).1)

/-- Fold `buildTree` over a list of children. -/
def buildTreeList : List DTree → Option String → State → State
  | [], _, s => s
  | t :: ts, p, s => buildTreeList ts p (buildTree t p s)
end

/-- A single parent-to-child link (`c` occurs in the child sequence of the
node registered under `p`). -/
def childOf (s : State) (p c : String) : Prop :=
  ∃ n, dictGet s.nodes p = some n ∧ c ∈ n.children

/-- A chain of child links from `a`, recording the sequence of names visited
after `a`. -/
inductive Chain (s : State) (a : String) : String → List String → Prop
  | refl : Chain s a a []
  | step {b c : String} {l : List String} :
      Chain s a b l → childOf s b c → Chain s a c (l ++ [c])

/-- `y` lies in the subtree reached from `a` by child links. -/
def Desc (s : State) (a y : String) : Prop := ∃ l, Chain s a y l

/-- Structural invariant of the mapping: keys are distinct, every stored node
carries its key as its name, the root (when present) is registered and is
referenced by no child entry, no name is referenced as a child more than once
across all child sequences, and every child reference resolves in the
mapping. -/
def Inv (s : State) : Prop :=
  (keys s).Nodup ∧
  (∀ kv ∈ s.nodes, kv.2.name = kv.1) ∧
  (∀ r ∈ s.root.toList, r ∈ keys s) ∧
  (∀ r ∈ s.root.toList, r ∉ allChildNames s) ∧
  (allChildNames s).Nodup ∧
  (∀ c ∈ allChildNames s, c ∈ keys s)

/-- No name lies on a cycle of child links: a chain from a name back to
itself is empty.  Renames and reparents freely reorder the mapping, so this
is a property of the link structure only; on a cyclic state (creatable
through the missing reparent guard, claim C3) Python's `to_dict` recursion
never reaches a base case. -/
def Acyclic (s : State) : Prop :=
  ∀ (x : String) (l : List String), Chain s x x l → l = []

/-- Uniqueness of the chain of child links from the root to any name. -/
def ChainUnique (s : State) : Prop :=
  ∀ r x l₁ l₂, s.root = some r → Chain s r x l₁ → Chain s r x l₂ → l₁ = l₂

/-- A mutation of the tree restricted to the operations of claim C2. -/
inductive TreeOp where
  | add (name : String) (parent : Option String) (head : String)
      (employees : Int) (budget perf : Rat)
  | delete (name : String)

/-- Run one operation, keeping only the state. -/
def applyOp (s : State) : TreeOp → State
  | .add name parent hd emp bud pf => (s.add name parent hd emp bud pf).1
  | .delete name => (s.delete name).1

/-- Run a sequence of operations from the empty tree. -/
def applyOps (ops : List TreeOp) : State :=
  ops.foldl applyOp State.empty

/-- The `DepartmentHeap` wrapper: the list of stored (priority, name) pairs.
`heapq.heappush` inserts the pair and permutes the array into heap order;
every observation of the structure (`get_all` fully sorts, `remove` filters by
name, `heapify` permutes) depends only on the multiset of stored pairs, so
the heap-order permutation is not tracked. -/
structure DepartmentHeap where
  heap : List (Int × String)
deriving DecidableEq, Repr

def DepartmentHeap.empty : DepartmentHeap := ⟨[]⟩

/-- `heapq.heappush(self.heap, (priority, name))`, up to heap-order
permutation. -/
def DepartmentHeap.add (h : DepartmentHeap) (priority : Int) (name : String) :
    DepartmentHeap :=
  ⟨h.heap ++ [(priority, name)]⟩

/-- `DepartmentHeap.remove` (lines 137-139): keep the pairs of other names. -/
def DepartmentHeap.remove (h : DepartmentHeap) (name : String) : DepartmentHeap :=
  ⟨h.heap.filter (fun pn => pn.2 ≠ name)⟩

/-- `DepartmentHeap.edit_priority` (lines 141-143). -/
def DepartmentHeap.edit_priority (h : DepartmentHeap) (name : String)
    (newPriority : Int) : DepartmentHeap :=
  (h.remove name).add newPriority name

/-- Python tuple comparison on (priority, name): by priority, ties by name. -/
def pairLe (a b : Int × String) : Prop :=
  a.1 < b.1 ∨ (a.1 = b.1 ∧ a.2 ≤ b.2)

instance : DecidableRel pairLe := fun a b => by
  unfold pairLe; infer_instance

/-- `sorted(self.heap)` (line 146): the stored pairs in tuple order.
Python's sort is modelled by insertion sort; the tuple order is total and
antisymmetric, so any sorting algorithm produces the same list. -/
def DepartmentHeap.get_all (h : DepartmentHeap) : List (Int × String) :=
  h.heap.insertionSort pairLe

/-- An operation on the priority structure. -/
inductive HeapOp where
  | add (priority : Int) (name : String)
  | remove (name : String)
  | setPriority (name : String) (priority : Int)

def applyHeapOp (h : DepartmentHeap) : HeapOp → DepartmentHeap
  | .add p n => h.add p n
  | .remove n => h.remove n
  | .setPriority n p => h.edit_priority n p

def applyHeapOps (ops : List HeapOp) : DepartmentHeap :=
  ops.foldl applyHeapOp DepartmentHeap.empty

end DeptApp

namespace DeptApp

/-! Basic facts about the dictionary representation. -/

theorem dictGet_isSome_iff {d : List (String × DeptNode)} {k : String} :
    (dictGet d k).isSome ↔ k ∈ d.map Prod.fst := by
  induction d with
  | nil => simp [dictGet]
  | cons kv rest ih =>
      obtain ⟨k', v⟩ := kv
      by_cases h : k' = k
      · subst h; simp [dictGet]
      · simp only [dictGet, if_neg h, List.map_cons, List.mem_cons]
        rw [ih]
        constructor
        · exact fun hm => Or.inr hm
        · rintro (hc | hm)
          · exact absurd hc.symm h
          · exact hm

theorem dictGet_eq_none_iff {d : List (String × DeptNode)} {k : String} :
    dictGet d k = none ↔ k ∉ d.map Prod.fst := by
  rw [← dictGet_isSome_iff, Option.isSome_iff_ne_none]
  tauto

theorem mem_keys_iff {s : State} {k : String} :
    k ∈ keys s ↔ (dictGet s.nodes k).isSome := dictGet_isSome_iff.symm

theorem dictMem_iff {d : List (String × DeptNode)} {k : String} :
    dictMem d k = true ↔ k ∈ d.map Prod.fst := by
  rw [dictMem, ← dictGet_isSome_iff]

theorem dictGet_mem {d : List (String × DeptNode)} {k : String} {v : DeptNode}
    (h : dictGet d k = some v) : (k, v) ∈ d := by
  induction d with
  | nil => simp [dictGet] at h
  | cons kv rest ih =>
      obtain ⟨k', v'⟩ := kv
      by_cases hk : k' = k
      · simp only [dictGet, if_pos hk] at h
        have hv : v' = v := Option.some.inj h
        exact List.mem_cons.2 (Or.inl (by rw [hk, hv]))
      · simp only [dictGet, if_neg hk] at h
        exact List.mem_cons.2 (Or.inr (ih h))

theorem dictGet_of_mem {d : List (String × DeptNode)} {k : String} {v : DeptNode}
    (hn : (d.map Prod.fst).Nodup) (h : (k, v) ∈ d) : dictGet d k = some v := by
  induction d with
  | nil => simp at h
  | cons kv rest ih =>
      obtain ⟨k', v'⟩ := kv
      simp only [List.map_cons, List.nodup_cons] at hn
      rcases List.mem_cons.1 h with h1 | h1
      · injection h1 with hk hv
        simp only [dictGet, if_pos hk.symm]
        rw [hv]
      · have hkne : k' ≠ k := by
          rintro rfl
          exact hn.1 (List.mem_map.2 ⟨(k', v), h1, rfl⟩)
        simp only [dictGet, if_neg hkne]
        exact ih hn.2 h1

theorem fst_replaceEntry {kv : String × DeptNode} {k : String} {v : DeptNode} :
    (if kv.1 = k then (k, v) else kv).1 = kv.1 := by
  by_cases h : kv.1 = k <;> simp [h]

theorem map_fst_replace {d : List (String × DeptNode)} {k : String} {v : DeptNode} :
    (d.map (fun kv => if kv.1 = k then (k, v) else kv)).map Prod.fst = d.map Prod.fst := by
  rw [List.map_map]
  exact List.map_congr_left (fun a _ => fst_replaceEntry)

theorem dictGet_replace_same {d : List (String × DeptNode)} {k : String} {v : DeptNode}
    (hm : k ∈ d.map Prod.fst) :
    dictGet (d.map (fun kv => if kv.1 = k then (k, v) else kv)) k = some v := by
  induction d with
  | nil => simp at hm
  | cons kv rest ih =>
      obtain ⟨k₀, v₀⟩ := kv
      by_cases h : k₀ = k
      · rw [List.map_cons,
          show (if (k₀, v₀).1 = k then (k, v) else (k₀, v₀)) = (k, v) by simp [h]]
        simp [dictGet]
      · rw [List.map_cons,
          show (if (k₀, v₀).1 = k then (k, v) else (k₀, v₀)) = (k₀, v₀) by simp [h]]
        simp only [List.map_cons, List.mem_cons] at hm
        rcases hm with hm | hm
        · exact absurd hm.symm h
        · simp only [dictGet, if_neg h]
          exact ih hm

theorem dictGet_replace_ne {d : List (String × DeptNode)} {k k' : String} {v : DeptNode}
    (h : k' ≠ k) :
    dictGet (d.map (fun kv => if kv.1 = k then (k, v) else kv)) k' = dictGet d k' := by
  induction d with
  | nil => rfl
  | cons kv rest ih =>
      obtain ⟨k₀, v₀⟩ := kv
      by_cases h0 : k₀ = k
      · rw [List.map_cons,
          show (if (k₀, v₀).1 = k then (k, v) else (k₀, v₀)) = (k, v) by simp [h0]]
        have h2 : k₀ ≠ k' := by rw [h0]; exact Ne.symm h
        simp only [dictGet, if_neg (Ne.symm h), if_neg h2]
        exact ih
      · rw [List.map_cons,
          show (if (k₀, v₀).1 = k then (k, v) else (k₀, v₀)) = (k₀, v₀) by simp [h0]]
        by_cases h1 : k₀ = k'
        · simp only [dictGet, if_pos h1]
        · simp only [dictGet, if_neg h1]
          exact ih

theorem dictGet_append_single_ne {d : List (String × DeptNode)} {k k' : String}
    {v : DeptNode} (h : k' ≠ k) : dictGet (d ++ [(k, v)]) k' = dictGet d k' := by
  induction d with
  | nil => simp only [List.nil_append, dictGet, if_neg (Ne.symm h)]
  | cons kv rest ih =>
      obtain ⟨k₀, v₀⟩ := kv
      by_cases h1 : k₀ = k'
      · simp only [List.cons_append, dictGet, if_pos h1]
      · simp only [List.cons_append, dictGet, if_neg h1]
        exact ih

theorem dictGet_dictSet_same {d : List (String × DeptNode)} {k : String} {v : DeptNode} :
    dictGet (dictSet d k v) k = some v := by
  rw [dictSet]
  by_cases hm : dictMem d k = true
  · rw [if_pos hm]; exact dictGet_replace_same (dictMem_iff.1 hm)
  · rw [if_neg hm]
    have hk : k ∉ d.map Prod.fst := fun hc => hm (dictMem_iff.2 hc)
    have hnone : dictGet d k = none := dictGet_eq_none_iff.2 hk
    induction d with
    | nil => simp [dictGet]
    | cons kv rest ih =>
        obtain ⟨k', v'⟩ := kv
        simp only [List.map_cons, List.mem_cons, not_or] at hk
        have h : k' ≠ k := fun hc => hk.1 hc.symm
        simp only [dictGet, if_neg h] at hnone
        simp only [List.cons_append, dictGet, if_neg h]
        exact ih (fun hc => hk.2 (dictMem_iff.1 hc)) hk.2 hnone

theorem dictGet_dictSet_ne {d : List (String × DeptNode)} {k k' : String} {v : DeptNode}
    (h : k' ≠ k) : dictGet (dictSet d k v) k' = dictGet d k' := by
  rw [dictSet]
  by_cases hm : dictMem d k = true
  · rw [if_pos hm]; exact dictGet_replace_ne h
  · rw [if_neg hm]; exact dictGet_append_single_ne h

theorem map_fst_dictSet_of_mem {d : List (String × DeptNode)} {k : String} {v : DeptNode}
    (h : k ∈ d.map Prod.fst) : (dictSet d k v).map Prod.fst = d.map Prod.fst := by
  rw [dictSet, if_pos (dictMem_iff.2 h)]; exact map_fst_replace

theorem map_fst_dictSet_of_not_mem {d : List (String × DeptNode)} {k : String} {v : DeptNode}
    (h : k ∉ d.map Prod.fst) : (dictSet d k v).map Prod.fst = d.map Prod.fst ++ [k] := by
  rw [dictSet, if_neg (fun hc => h (dictMem_iff.1 hc))]
  simp

theorem dictGet_dictMapVals {d : List (String × DeptNode)} {f : DeptNode → DeptNode}
    {k : String} : dictGet (dictMapVals d f) k = (dictGet d k).map f := by
  induction d with
  | nil => simp [dictGet, dictMapVals]
  | cons kv rest ih =>
      obtain ⟨k₀, v₀⟩ := kv
      by_cases h : k₀ = k
      · simp [dictGet, dictMapVals, h]
      · simp only [dictMapVals, List.map_cons, dictGet, if_neg h] at ih ⊢
        exact ih

theorem map_fst_dictMapVals {d : List (String × DeptNode)} {f : DeptNode → DeptNode} :
    (dictMapVals d f).map Prod.fst = d.map Prod.fst := by
  rw [dictMapVals, List.map_map]
  rfl

theorem dictGet_dictDel_same {d : List (String × DeptNode)} {k : String} :
    dictGet (dictDel d k) k = none := by
  induction d with
  | nil => rfl
  | cons kv rest ih =>
      obtain ⟨k₀, v₀⟩ := kv
      by_cases h : k₀ = k
      · rw [dictDel, List.filter_cons, if_neg (by simp [h])]
        exact ih
      · rw [dictDel, List.filter_cons, if_pos (by simp [h])]
        simp only [dictGet, if_neg h]
        exact ih

theorem dictGet_dictDel_ne {d : List (String × DeptNode)} {k k' : String} (h : k' ≠ k) :
    dictGet (dictDel d k) k' = dictGet d k' := by
  induction d with
  | nil => rfl
  | cons kv rest ih =>
      obtain ⟨k₀, v₀⟩ := kv
      by_cases h0 : k₀ = k
      · rw [dictDel, List.filter_cons, if_neg (by simp [h0])]
        have h2 : k₀ ≠ k' := by rw [h0]; exact Ne.symm h
        rw [show dictGet ((k₀, v₀) :: rest) k' = dictGet rest k' by
          simp only [dictGet, if_neg h2]]
        exact ih
      · rw [dictDel, List.filter_cons, if_pos (by simp [h0])]
        by_cases h1 : k₀ = k'
        · simp only [dictGet, if_pos h1]
        · simp only [dictGet, if_neg h1]
          exact ih

theorem map_fst_dictDel {d : List (String × DeptNode)} {k : String} :
    (dictDel d k).map Prod.fst = (d.map Prod.fst).filter (fun x => x != k) := by
  induction d with
  | nil => rfl
  | cons kv rest ih =>
      obtain ⟨k₀, v₀⟩ := kv
      by_cases h : k₀ = k
      · rw [dictDel, List.filter_cons, if_neg (by simp [h]), List.map_cons,
          List.filter_cons, if_neg (by simp [h])]
        exact ih
      · rw [dictDel, List.filter_cons, if_pos (by simp [h]), List.map_cons, List.map_cons,
          List.filter_cons, if_pos (by simp [h])]
        exact congrArg _ ih

/-! Concrete example states, shared by several claims. -/

/-- The one-node example tree: just "A" as root. -/
def exA : State := (State.empty.add "A" none "" 0 0 0).1

/-- The two-node example tree: "A" is root, "B" its child. -/
def exAB : State := (exA.add "B" (some "A") "" 0 0 0).1

/-- The three-node chain: "A" root, "B" child of "A", "C" child of "B". -/
def exABC : State := (exAB.add "C" (some "B") "" 0 0 0).1

/-! Unfolding helpers for the success path of `edit`. -/

theorem exists_dictGet_of_mem_keys {s : State} {X : String} (h : X ∈ keys s) :
    ∃ n, dictGet s.nodes X = some n :=
  Option.isSome_iff_exists.1 (mem_keys_iff.1 h)

theorem edit_eq_of_dictGet {s : State} {name : String} {n0 : DeptNode}
    (hget : dictGet s.nodes name = some n0) (new_name : Option String)
    (parent : Option String) :
    s.edit name new_name none none none none parent = editRename s name new_name parent := by
  rw [State.edit, hget]
  rfl

theorem edit_none_of_dictGet_none {s : State} {name : String}
    (hget : dictGet s.nodes name = none) (new_name : Option String)
    (head : Option String) (employees budget perf : Option Value)
    (parent : Option String) :
    s.edit name new_name head employees budget perf parent = (s, .notFound) := by
  rw [State.edit, hget]

theorem keys_find_parent_and_remove {s : State} {X : String} :
    keys (s.find_parent_and_remove X) = keys s := by
  exact map_fst_dictMapVals (d := s.nodes)
    (f := fun n => { n with children := n.children.filter (fun c => c != X) })

theorem root_find_parent_and_remove {s : State} {X : String} :
    (s.find_parent_and_remove X).root = s.root := rfl

/-- C9.  Supplying the empty string as `new_name` skips the rename branch
(Python truthiness) and the call succeeds without touching the state. -/
theorem C9_empty_new_name_noop :
    ∀ s X, X ∈ keys s →
      s.edit X (some "") none none none none none = (s, .success) := by
  intro s X hX
  obtain ⟨n0, hget⟩ := exists_dictGet_of_mem_keys hX
  rw [edit_eq_of_dictGet hget]
  simp only [editRename]
  rw [if_neg (by simp)]
  rfl

/-- Witness for C9 at the two-node example tree. -/
theorem C9_empty_new_name_noop_witness :
    exAB.edit "A" (some "") none none none none none = (exAB, .success) :=
  C9_empty_new_name_noop exAB "A" (by decide)

/-- C3 (code bug).  Reparenting "A" below its own child "B" is accepted
(`edit` returns success) and produces a genuine cycle: a nonempty chain of
child links from "A" back to "A". -/
theorem C3_cycle_not_rejected :
    (exAB.edit "A" none none none none none (some "B")).2 = .success ∧
    Chain (exAB.edit "A" none none none none none (some "B")).1 "A" "A" ["B", "A"] := by
  constructor
  · decide
  · have h1 : childOf (exAB.edit "A" none none none none none (some "B")).1 "A" "B" :=
      ⟨⟨"A", "", 0, 0, 0, ["B"]⟩, by decide, by decide⟩
    have h2 : childOf (exAB.edit "A" none none none none none (some "B")).1 "B" "A" :=
      ⟨⟨"B", "", 0, 0, 0, ["A"]⟩, by decide, by decide⟩
    have := Chain.step (Chain.step (Chain.refl (s := (exAB.edit "A" none none none none none (some "B")).1) (a := "A")) h1) h2
    simpa using this

/-- C10.  Reparenting the root under another node appends the root to that
node's child sequence while leaving the root reference in place. -/
theorem C10_root_reparent :
    ∀ s X P, s.root = some X → X ∈ keys s → P ∈ keys s → P ≠ X → P ≠ "" →
      (s.edit X none none none none none (some P)).2 = .success ∧
      (s.edit X none none none none none (some P)).1.root = some X ∧
      ∃ pn, dictGet (s.edit X none none none none none (some P)).1.nodes P = some pn ∧
        X ∈ pn.children := by
  intro s X P hroot hX hP hPX hPe
  obtain ⟨n0, hget⟩ := exists_dictGet_of_mem_keys hX
  rw [edit_eq_of_dictGet hget]
  simp only [editRename, editReparent]
  have hkeys1 : P ∈ keys (s.find_parent_and_remove X) := by
    rw [keys_find_parent_and_remove]; exact hP
  have hmem : dictMem (s.find_parent_and_remove X).nodes P = true :=
    dictMem_iff.2 hkeys1
  obtain ⟨pn, hpn⟩ := exists_dictGet_of_mem_keys hkeys1
  rw [State.doReparent]
  rw [if_neg (by simp [hPe, hmem])]
  rw [hpn]
  refine ⟨trivial, hroot, ⟨{ pn with children := pn.children ++ [X] }, ?_, ?_⟩⟩
  · exact dictGet_dictSet_same
  · simp

/-- Witness for C10: in the two-node tree, reparenting the root "A" under "B"
leaves "A" as root while making it a child of "B". -/
theorem C10_root_reparent_witness :
    (exAB.edit "A" none none none none none (some "B")).2 = .success ∧
    (exAB.edit "A" none none none none none (some "B")).1.root = some "A" ∧
    ∃ pn, dictGet (exAB.edit "A" none none none none none (some "B")).1.nodes "B" = some pn ∧
      "A" ∈ pn.children :=
  C10_root_reparent exAB "A" "B" (by decide) (by decide) (by decide) (by decide) (by decide)

/-! The priority structure (claim C7). -/

instance : IsTrans (Int × String) pairLe :=
  ⟨by
    rintro a b c (h1 | ⟨h1, h1'⟩) (h2 | ⟨h2, h2'⟩)
    · exact Or.inl (lt_trans h1 h2)
    · exact Or.inl (h2 ▸ h1)
    · exact Or.inl (h1 ▸ h2)
    · exact Or.inr ⟨h1.trans h2, le_trans h1' h2'⟩⟩

instance : IsTotal (Int × String) pairLe :=
  ⟨by
    intro a b
    rcases lt_trichotomy a.1 b.1 with h | h | h
    · exact Or.inl (Or.inl h)
    · rcases le_total a.2 b.2 with h' | h'
      · exact Or.inl (Or.inr ⟨h, h'⟩)
      · exact Or.inr (Or.inr ⟨h.symm, h'⟩)
    · exact Or.inr (Or.inl h)⟩

/-- C7.  After any sequence of priority operations, `get_all` lists exactly
the stored (priority, name) pairs, sorted ascending by priority with ties
broken by name; concretely, adding (5, "X") then (2, "Y") lists
[(2, "Y"), (5, "X")]. -/
theorem C7_priority_listing_sorted :
    ∀ ops : List HeapOp,
      ((applyHeapOps ops).get_all).Perm (applyHeapOps ops).heap ∧
      List.Sorted pairLe ((applyHeapOps ops).get_all) ∧
      ((DepartmentHeap.empty.add 5 "X").add 2 "Y").get_all = [(2, "Y"), (5, "X")] :=
  fun _ =>
    ⟨List.perm_insertionSort pairLe _, List.sorted_insertionSort pairLe _, by decide⟩

/-! Claim C8: numeric coercion and validation in `edit`. -/

theorem edit_employees_unfold {s : State} {name : String} {n0 : DeptNode}
    (hget : dictGet s.nodes name = some n0) (v : Value) :
    s.edit name none none (some v) none none none =
      (match pyInt v with
        | none => (s, .valError)
        | some k => (updateNode s name { n0 with employees := k }, .success)) := by
  rw [State.edit, hget]
  rcases hv : pyInt v with _ | k
  · simp only [stepHead, stepEmployees, hv]
  · simp only [stepHead, stepEmployees, stepBudget, stepPerf, editRename, editReparent, hv]

theorem edit_budget_unfold {s : State} {name : String} {n0 : DeptNode}
    (hget : dictGet s.nodes name = some n0) (v : Value) :
    s.edit name none none none (some v) none none =
      (match pyFloat v with
        | none => (s, .valError)
        | some q => (updateNode s name { n0 with budget := q }, .success)) := by
  rw [State.edit, hget]
  rcases hv : pyFloat v with _ | q
  · simp only [stepHead, stepEmployees, stepBudget, hv]
  · simp only [stepHead, stepEmployees, stepBudget, stepPerf, editRename, editReparent, hv]

theorem edit_perf_unfold {s : State} {name : String} {n0 : DeptNode}
    (hget : dictGet s.nodes name = some n0) (v : Value) :
    s.edit name none none none none (some v) none =
      (match pyFloat v with
        | none => (s, .valError)
        | some q => (updateNode s name { n0 with perf := q }, .success)) := by
  rw [State.edit, hget]
  rcases hv : pyFloat v with _ | q
  · simp only [stepHead, stepEmployees, stepBudget, stepPerf, hv]
  · simp only [stepHead, stepEmployees, stepBudget, stepPerf, editRename, editReparent, hv]

/-- C8.  A non-coercible value for a numeric field makes `edit` fail with the
validation error (the raised `ValueError`, surfaced to the caller by the
route layer; the process is not terminated), and a coercible value is stored
through `int` (employees) respectively `float` (budget, perf).  Strings
naming the non-finite floats (`inf`/`infinity`/`nan`), which `float()` also
coerces but which have no image in the rational value domain of this
embedding, are excluded from the two error-direction conjuncts. -/
theorem C8_numeric_validation :
    ∀ s X v, X ∈ keys s →
      (pyInt v = none → (s.edit X none none (some v) none none none).2 = .valError) ∧
      (infNanValue v = false → pyFloat v = none →
        (s.edit X none none none (some v) none none).2 = .valError) ∧
      (infNanValue v = false → pyFloat v = none →
        (s.edit X none none none none (some v) none).2 = .valError) ∧
      (∀ n, pyInt v = some n →
        (dictGet (s.edit X none none (some v) none none none).1.nodes X).map
          DeptNode.employees = some n) ∧
      (∀ q, pyFloat v = some q →
        (dictGet (s.edit X none none none (some v) none none).1.nodes X).map
          DeptNode.budget = some q) ∧
      (∀ q, pyFloat v = some q →
        (dictGet (s.edit X none none none none (some v) none).1.nodes X).map
          DeptNode.perf = some q) := by
  intro s X v hX
  obtain ⟨n0, hget⟩ := exists_dictGet_of_mem_keys hX
  refine ⟨?_, ?_, ?_, ?_, ?_, ?_⟩
  · intro hv; rw [edit_employees_unfold hget, hv]
  · intro _ hv; rw [edit_budget_unfold hget, hv]
  · intro _ hv; rw [edit_perf_unfold hget, hv]
  · intro n hv
    rw [edit_employees_unfold hget, hv]
    show (dictGet (dictSet s.nodes X _) X).map DeptNode.employees = some n
    rw [dictGet_dictSet_same]
    rfl
  · intro q hv
    rw [edit_budget_unfold hget, hv]
    show (dictGet (dictSet s.nodes X _) X).map DeptNode.budget = some q
    rw [dictGet_dictSet_same]
    rfl
  · intro q hv
    rw [edit_perf_unfold hget, hv]
    show (dictGet (dictSet s.nodes X _) X).map DeptNode.perf = some q
    rw [dictGet_dictSet_same]
    rfl

/-- Witness for C8: "abc" is rejected for employees with a validation error;
"12" and the padded, underscored " 1_2 " are stored as the integer 12; the
exponent literal "1e5" is stored as the float 100000; and a float 7/2 value
is stored for budget directly. -/
theorem C8_numeric_validation_witness :
    (exAB.edit "A" none none (some (.str "abc")) none none none).2 = .valError ∧
    (dictGet (exAB.edit "A" none none (some (.str "12")) none none none).1.nodes "A").map
      DeptNode.employees = some 12 ∧
    (dictGet (exAB.edit "A" none none (some (.str " 1_2 ")) none none none).1.nodes "A").map
      DeptNode.employees = some 12 ∧
    (dictGet (exAB.edit "A" none none none (some (.str "1e5")) none none).1.nodes "A").map
      DeptNode.budget = some 100000 ∧
    (dictGet (exAB.edit "A" none none none (some (.float ((7 : Rat) / 2))) none none).1.nodes "A").map
      DeptNode.budget = some ((7 : Rat) / 2) :=
  ⟨(C8_numeric_validation exAB "A" (.str "abc") (by decide)).1 (by decide),
   (C8_numeric_validation exAB "A" (.str "12") (by decide)).2.2.2.1 12 (by decide),
   (C8_numeric_validation exAB "A" (.str " 1_2 ") (by decide)).2.2.2.1 12 (by decide),
   (C8_numeric_validation exAB "A" (.str "1e5") (by decide)).2.2.2.2.1 100000 (by
     rw [show pyFloat (Value.str "1e5") =
       some (((digitsToNat ['1'] : Nat) : Rat) * 10 ^ digitsToNat ['5']) from rfl]
     norm_num [digitsToNat, show Char.toNat '1' - 48 = 1 from rfl,
       show Char.toNat '5' - 48 = 5 from rfl]),
   (C8_numeric_validation exAB "A" (.float ((7 : Rat) / 2)) (by decide)).2.2.2.2.1
     ((7 : Rat) / 2) rfl⟩

/-! Claim C1: what mutation errors leave behind. -/

/-- Everything except the four metadata fields of the node registered under
`name` agrees between `s` and `s'`: same keys, same root, all other entries
untouched, and the node's own name and child sequence untouched. -/
def editErrorFrame (s s' : State) (name : String) : Prop :=
  keys s' = keys s ∧ s'.root = s.root ∧
  (∀ k, k ≠ name → dictGet s'.nodes k = dictGet s.nodes k) ∧
  (dictGet s'.nodes name).map DeptNode.name = (dictGet s.nodes name).map DeptNode.name ∧
  (dictGet s'.nodes name).map DeptNode.children =
    (dictGet s.nodes name).map DeptNode.children

/-- Invariant carried through the field-update steps of `edit`: the state so
far differs from `s` only in the metadata fields of `name`, and the mutated
node object is the one registered under `name`. -/
def StepOk (s : State) (name : String) (sn : State × DeptNode) : Prop :=
  editErrorFrame s sn.1 name ∧ dictGet sn.1.nodes name = some sn.2

theorem editErrorFrame_refl {s : State} {name : String} : editErrorFrame s s name :=
  ⟨rfl, rfl, fun _ _ => rfl, rfl, rfl⟩

theorem stepOk_init {s : State} {name : String} {node0 : DeptNode}
    (hget : dictGet s.nodes name = some node0) : StepOk s name (s, node0) :=
  ⟨editErrorFrame_refl, hget⟩

theorem stepOk_update {s : State} {name : String} {sn : State × DeptNode}
    (h : StepOk s name sn) {n : DeptNode}
    (hname : n.name = sn.2.name) (hch : n.children = sn.2.children) :
    StepOk s name (updateNode sn.1 name n, n) := by
  obtain ⟨⟨hk, hr, ho, hn, hc⟩, hg⟩ := h
  have hmem : name ∈ keys sn.1 := mem_keys_iff.2 (by rw [hg]; rfl)
  refine ⟨⟨?_, hr, ?_, ?_, ?_⟩, ?_⟩
  · show (dictSet sn.1.nodes name n).map Prod.fst = keys s
    rw [map_fst_dictSet_of_mem hmem]
    exact hk
  · intro k hkne
    show dictGet (dictSet sn.1.nodes name n) k = dictGet s.nodes k
    rw [dictGet_dictSet_ne hkne]
    exact ho k hkne
  · show (dictGet (dictSet sn.1.nodes name n) name).map DeptNode.name = _
    rw [dictGet_dictSet_same]
    rw [← hn, hg]
    simpa using hname
  · show (dictGet (dictSet sn.1.nodes name n) name).map DeptNode.children = _
    rw [dictGet_dictSet_same]
    rw [← hc, hg]
    simpa using hch
  · exact dictGet_dictSet_same

theorem stepOk_stepHead {s : State} {name : String} {sn : State × DeptNode}
    {head : Option String} (h : StepOk s name sn) :
    StepOk s name (stepHead sn name head) := by
  cases head with
  | none => exact h
  | some hd => exact stepOk_update h rfl rfl

theorem stepOk_stepEmployees {s : State} {name : String} {sn : State × DeptNode}
    {v? : Option Value} (h : StepOk s name sn) :
    (∀ sn', stepEmployees sn name v? = .ok sn' → StepOk s name sn') ∧
    (∀ se, stepEmployees sn name v? = .error se → editErrorFrame s se name) := by
  cases v? with
  | none =>
      refine ⟨fun sn' hsn => ?_, fun se hse => ?_⟩
      · cases hsn; exact h
      · cases hse
  | some v =>
      rcases hv : pyInt v with _ | k
      · refine ⟨fun sn' hsn => ?_, fun se hse => ?_⟩
        · rw [stepEmployees, hv] at hsn; cases hsn
        · rw [stepEmployees, hv] at hse
          cases hse
          exact h.1
      · refine ⟨fun sn' hsn => ?_, fun se hse => ?_⟩
        · rw [stepEmployees, hv] at hsn
          cases hsn
          exact stepOk_update h rfl rfl
        · rw [stepEmployees, hv] at hse; cases hse

theorem stepOk_stepBudget {s : State} {name : String} {sn : State × DeptNode}
    {v? : Option Value} (h : StepOk s name sn) :
    (∀ sn', stepBudget sn name v? = .ok sn' → StepOk s name sn') ∧
    (∀ se, stepBudget sn name v? = .error se → editErrorFrame s se name) := by
  cases v? with
  | none =>
      refine ⟨fun sn' hsn => ?_, fun se hse => ?_⟩
      · cases hsn; exact h
      · cases hse
  | some v =>
      rcases hv : pyFloat v with _ | q
      · refine ⟨fun sn' hsn => ?_, fun se hse => ?_⟩
        · rw [stepBudget, hv] at hsn; cases hsn
        · rw [stepBudget, hv] at hse
          cases hse
          exact h.1
      · refine ⟨fun sn' hsn => ?_, fun se hse => ?_⟩
        · rw [stepBudget, hv] at hsn
          cases hsn
          exact stepOk_update h rfl rfl
        · rw [stepBudget, hv] at hse; cases hse

theorem stepOk_stepPerf {s : State} {name : String} {sn : State × DeptNode}
    {v? : Option Value} (h : StepOk s name sn) :
    (∀ sn', stepPerf sn name v? = .ok sn' → StepOk s name sn') ∧
    (∀ se, stepPerf sn name v? = .error se → editErrorFrame s se name) := by
  cases v? with
  | none =>
      refine ⟨fun sn' hsn => ?_, fun se hse => ?_⟩
      · cases hsn; exact h
      · cases hse
  | some v =>
      rcases hv : pyFloat v with _ | q
      · refine ⟨fun sn' hsn => ?_, fun se hse => ?_⟩
        · rw [stepPerf, hv] at hsn; cases hsn
        · rw [stepPerf, hv] at hse
          cases hse
          exact h.1
      · refine ⟨fun sn' hsn => ?_, fun se hse => ?_⟩
        · rw [stepPerf, hv] at hsn
          cases hsn
          exact stepOk_update h rfl rfl
        · rw [stepPerf, hv] at hse; cases hse

theorem editReparent_snd {s : State} {c : String} {parent : Option String} :
    (editReparent s c parent).2 = .success := by
  cases parent <;> rfl

/-- Case analysis over the result of `edit`: a not-found error returns the
state untouched; a name conflict or a validation error returns the state with
at most the metadata fields of the target node changed. -/
theorem edit_error_cases (s : State) (name : String) (new_name : Option String)
    (head : Option String) (employees budget perf : Option Value)
    (parent : Option String) :
    ((s.edit name new_name head employees budget perf parent).2 = .notFound →
      (s.edit name new_name head employees budget perf parent).1 = s) ∧
    ((s.edit name new_name head employees budget perf parent).2 = .nameConflict ∨
     (s.edit name new_name head employees budget perf parent).2 = .valError →
      editErrorFrame s (s.edit name new_name head employees budget perf parent).1 name) := by
  rcases hget : dictGet s.nodes name with _ | node0
  · rw [edit_none_of_dictGet_none hget]
    exact ⟨fun _ => rfl, by rintro (hc | hc) <;> simp at hc⟩
  · have h0 : StepOk s name (stepHead (s, node0) name head) :=
      stepOk_stepHead (stepOk_init hget)
    rcases hE : stepEmployees (stepHead (s, node0) name head) name employees with se | sn1
    · have heq : s.edit name new_name head employees budget perf parent = (se, .valError) := by
        simp only [State.edit, hget, hE]
      rw [heq]
      exact ⟨fun hc => by simp at hc, fun _ => (stepOk_stepEmployees h0).2 se hE⟩
    · have h1 : StepOk s name sn1 := (stepOk_stepEmployees h0).1 sn1 hE
      rcases hB : stepBudget sn1 name budget with se | sn2
      · have heq : s.edit name new_name head employees budget perf parent = (se, .valError) := by
          simp only [State.edit, hget, hE, hB]
        rw [heq]
        exact ⟨fun hc => by simp at hc, fun _ => (stepOk_stepBudget h1).2 se hB⟩
      · have h2 : StepOk s name sn2 := (stepOk_stepBudget h1).1 sn2 hB
        rcases hP : stepPerf sn2 name perf with se | sn3
        · have heq : s.edit name new_name head employees budget perf parent = (se, .valError) := by
            simp only [State.edit, hget, hE, hB, hP]
          rw [heq]
          exact ⟨fun hc => by simp at hc, fun _ => (stepOk_stepPerf h2).2 se hP⟩
        · have h3 : StepOk s name sn3 := (stepOk_stepPerf h2).1 sn3 hP
          have heq : s.edit name new_name head employees budget perf parent =
              editRename sn3.1 name new_name parent := by
            simp only [State.edit, hget, hE, hB, hP]
          rw [heq]
          rcases new_name with _ | nn
          · simp only [editRename]
            refine ⟨fun hc => ?_, fun hc => ?_⟩
            · rw [editReparent_snd] at hc; cases hc
            · rcases hc with hc | hc <;> rw [editReparent_snd] at hc <;> cases hc
          · simp only [editRename]
            by_cases hcond : nn ≠ "" ∧ nn ≠ name
            · rw [if_pos hcond]
              by_cases hm : dictMem sn3.1.nodes nn = true
              · rw [if_pos hm]
                exact ⟨fun hc => by simp at hc, fun _ => h3.1⟩
              · rw [if_neg hm]
                refine ⟨fun hc => ?_, fun hc => ?_⟩
                · rw [editReparent_snd] at hc; cases hc
                · rcases hc with hc | hc <;> rw [editReparent_snd] at hc <;> cases hc
            · rw [if_neg hcond]
              refine ⟨fun hc => ?_, fun hc => ?_⟩
              · rw [editReparent_snd] at hc; cases hc
              · rcases hc with hc | hc <;> rw [editReparent_snd] at hc <;> cases hc

theorem add_snd_true {s : State} {name : String} {parent : Option String}
    {hd : String} {emp : Int} {bud pf : Rat}
    (hm : ¬ dictMem s.nodes name = true) :
    (State.add s name parent hd emp bud pf).2 = true := by
  rcases parent with _ | p
  · simp only [State.add, if_neg hm]
    by_cases hr : s.root.isNone = true <;> simp [hr]
  · simp only [State.add, if_neg hm]
    by_cases hp : p = ""
    · rw [if_pos hp]
      by_cases hr : s.root.isNone = true <;> simp [hr]
    · rw [if_neg hp]
      rcases hd2 : dictGet (dictSet s.nodes name ⟨name, hd, emp, bud, pf, []⟩) p with _ | pn
      · by_cases hr : s.root.isNone = true <;> simp [hr]
      · rfl

theorem add_fst_of_snd_false {s : State} {name : String} {parent : Option String}
    {hd : String} {emp : Int} {bud pf : Rat}
    (h : (State.add s name parent hd emp bud pf).2 = false) :
    (State.add s name parent hd emp bud pf).1 = s := by
  by_cases hm : dictMem s.nodes name = true
  · rw [State.add, if_pos hm]
  · rw [add_snd_true hm] at h
    simp at h

theorem delete_fst_of_snd_false {s : State} {name : String}
    (h : (State.delete s name).2 = false) : (State.delete s name).1 = s := by
  by_cases hm : dictMem s.nodes name = true
  · rw [State.delete, if_pos hm] at h
    simp at h
  · rw [State.delete, if_neg hm]

/-- C1 counterexample.  With "A" and "B" in the tree, the call
edit("A", new_name="B", head="X") reports a name conflict, yet the state is
not the one from before the call: the head field of "A" has already been
overwritten with "X" (it was ""). -/
theorem C1_counterexample :
    (exAB.edit "A" (some "B") (some "X") none none none none).2 = .nameConflict ∧
    (exAB.edit "A" (some "B") (some "X") none none none none).1 ≠ exAB ∧
    (dictGet (exAB.edit "A" (some "B") (some "X") none none none none).1.nodes "A").map
      DeptNode.head = some "X" ∧
    (dictGet exAB.nodes "A").map DeptNode.head = some "" := by
  refine ⟨by decide, by decide, by decide, by decide⟩

/-- C1 (amended).  `add` and `delete` leave the state untouched whenever they
report an error, and so does `edit` on an unknown name; but when `edit` fails
with a name conflict or a validation error, the metadata field updates made
before the failing check persist — only the key set, the root, the other
entries, and the target node's name and child sequence are guaranteed
unchanged. -/
theorem C1_amended :
    (∀ (s : State) (name : String) (parent : Option String) (hd : String)
        (emp : Int) (bud pf : Rat),
        (State.add s name parent hd emp bud pf).2 = false →
        (State.add s name parent hd emp bud pf).1 = s) ∧
    (∀ (s : State) (name : String),
        (State.delete s name).2 = false → (State.delete s name).1 = s) ∧
    (∀ (s : State) (name : String) (new_name head : Option String)
        (employees budget perf : Option Value) (parent : Option String),
        (s.edit name new_name head employees budget perf parent).2 = .notFound →
        (s.edit name new_name head employees budget perf parent).1 = s) ∧
    (∀ (s : State) (name : String) (new_name head : Option String)
        (employees budget perf : Option Value) (parent : Option String),
        (s.edit name new_name head employees budget perf parent).2 = .nameConflict ∨
        (s.edit name new_name head employees budget perf parent).2 = .valError →
        editErrorFrame s (s.edit name new_name head employees budget perf parent).1 name) :=
  ⟨fun _ _ _ _ _ _ _ h => add_fst_of_snd_false h,
   fun _ _ h => delete_fst_of_snd_false h,
   fun s name new_name head employees budget perf parent =>
     (edit_error_cases s name new_name head employees budget perf parent).1,
   fun s name new_name head employees budget perf parent =>
     (edit_error_cases s name new_name head employees budget perf parent).2⟩

/-- Witness for the amended C1 at concrete error calls: a duplicate add and a
missing delete return the unchanged state, and the conflicting rename keeps
the keys, the root, the untouched node "B", and "A"'s children intact. -/
theorem C1_amended_witness :
    (State.add exAB "A" none "" 0 0 0).1 = exAB ∧
    (exAB.delete "Z").1 = exAB ∧
    (exAB.edit "Z" none none none none none none).1 = exAB ∧
    editErrorFrame exAB (exAB.edit "A" (some "B") (some "X") none none none none).1 "A" :=
  ⟨C1_amended.1 exAB "A" none "" 0 0 0 (by decide),
   C1_amended.2.1 exAB "Z" (by decide),
   C1_amended.2.2.1 exAB "Z" none none none none none none (by decide),
   C1_amended.2.2.2 exAB "A" (some "B") (some "X") none none none none (Or.inl (by decide))⟩

/-! Structural machinery for the tree invariant (claims C2 and C4). -/

theorem contains_iff_mem {l : List String} {x : String} : l.contains x = true ↔ x ∈ l :=
  List.elem_iff

theorem exists_split_of_dictGet {d : List (String × DeptNode)} {k : String} {v : DeptNode}
    (h : dictGet d k = some v) :
    ∃ l₁ l₂, d = l₁ ++ (k, v) :: l₂ ∧ k ∉ l₁.map Prod.fst := by
  induction d with
  | nil => simp [dictGet] at h
  | cons kv rest ih =>
      obtain ⟨k₀, v₀⟩ := kv
      by_cases hk : k₀ = k
      · simp only [dictGet, if_pos hk] at h
        exact ⟨[], rest, by rw [hk, Option.some.inj h]; rfl, by simp⟩
      · simp only [dictGet, if_neg hk] at h
        obtain ⟨l₁, l₂, hsplit, hnot⟩ := ih h
        refine ⟨(k₀, v₀) :: l₁, l₂, by rw [hsplit]; rfl, ?_⟩
        simp only [List.map_cons, List.mem_cons, not_or]
        exact ⟨fun hc => hk hc.symm, hnot⟩

theorem replace_split {l₁ l₂ : List (String × DeptNode)} {k : String} {v w : DeptNode}
    (h1 : k ∉ l₁.map Prod.fst) (h2 : k ∉ l₂.map Prod.fst) :
    (l₁ ++ (k, v) :: l₂).map (fun kv => if kv.1 = k then (k, w) else kv) =
      l₁ ++ (k, w) :: l₂ := by
  induction l₁ with
  | nil =>
      simp only [List.nil_append, List.map_cons, if_true]
      congr 1
      induction l₂ with
      | nil => rfl
      | cons a t ih =>
          simp only [List.map_cons, List.mem_cons, not_or] at h2
          simp only [List.map_cons]
          rw [if_neg (fun hc => h2.1 hc.symm), ih h2.2]
  | cons a t ih =>
      simp only [List.map_cons, List.mem_cons, not_or] at h1
      simp only [List.cons_append, List.map_cons]
      rw [if_neg (fun hc => h1.1 hc.symm), ih h1.2]

theorem dictSet_split {l₁ l₂ : List (String × DeptNode)} {k : String} {v w : DeptNode}
    (hn : ((l₁ ++ (k, v) :: l₂).map Prod.fst).Nodup) :
    dictSet (l₁ ++ (k, v) :: l₂) k w = l₁ ++ (k, w) :: l₂ := by
  have hmem : k ∈ (l₁ ++ (k, v) :: l₂).map Prod.fst := by simp
  rw [dictSet, if_pos (dictMem_iff.2 hmem)]
  simp only [List.map_append, List.map_cons] at hn
  have hd := List.disjoint_of_nodup_append hn
  have h1 : k ∉ l₁.map Prod.fst := fun hc => hd hc (by simp)
  have h2 : k ∉ l₂.map Prod.fst := by
    have := (List.nodup_append.1 hn).2.1
    simp only [List.nodup_cons] at this
    exact this.1
  exact replace_split h1 h2

theorem dictSet_append_of_not_mem {d : List (String × DeptNode)} {k : String} {v : DeptNode}
    (h : k ∉ d.map Prod.fst) : dictSet d k v = d ++ [(k, v)] := by
  rw [dictSet, if_neg (fun hc => h (dictMem_iff.1 hc))]

theorem allChildNames_split {s : State} {l₁ l₂ : List (String × DeptNode)}
    {k : String} {v : DeptNode} (h : s.nodes = l₁ ++ (k, v) :: l₂) :
    allChildNames s =
      (l₁.map (fun kv => kv.2.children)).flatten ++ v.children ++
        (l₂.map (fun kv => kv.2.children)).flatten := by
  rw [allChildNames, h]
  simp

theorem mem_allChildNames_of_mem {s : State} {k : String} {n : DeptNode} {c : String}
    (hm : (k, n) ∈ s.nodes) (hc : c ∈ n.children) : c ∈ allChildNames s := by
  rw [allChildNames, List.mem_flatten]
  exact ⟨n.children, List.mem_map.2 ⟨(k, n), hm, rfl⟩, hc⟩

theorem childOf_mem_allChildNames {s : State} {b c : String} (h : childOf s b c) :
    c ∈ allChildNames s := by
  obtain ⟨n, hg, hc⟩ := h
  exact mem_allChildNames_of_mem (dictGet_mem hg) hc

/-- Under distinct keys and globally duplicate-free child references, a name
has at most one parent. -/
theorem childOf_unique {s : State} (hn : (keys s).Nodup) (hu : (allChildNames s).Nodup)
    {b k c : String} (h1 : childOf s b c) (h2 : childOf s k c) : b = k := by
  obtain ⟨nb, hgb, hcb⟩ := h1
  obtain ⟨nk, hgk, hck⟩ := h2
  by_contra hne
  obtain ⟨l₁, l₂, hsp, _⟩ := exists_split_of_dictGet hgb
  have hgk' : dictGet (l₁ ++ (b, nb) :: l₂) k = some nk := by rw [← hsp]; exact hgk
  have hkmem : (k, nk) ∈ l₁ ++ (b, nb) :: l₂ := dictGet_mem hgk'
  have hkmem' : (k, nk) ∈ l₁ ∨ (k, nk) ∈ l₂ := by
    rcases List.mem_append.1 hkmem with h | h
    · exact Or.inl h
    · rcases List.mem_cons.1 h with h | h
      · exact absurd (congrArg Prod.fst h).symm hne
      · exact Or.inr h
  have hA := allChildNames_split (s := s) hsp
  rw [hA] at hu
  rcases hkmem' with hmem | hmem
  · have hcsub : c ∈ (l₁.map (fun kv => kv.2.children)).flatten := by
      rw [List.mem_flatten]
      exact ⟨nk.children, List.mem_map.2 ⟨(k, nk), hmem, rfl⟩, hck⟩
    have hd := List.disjoint_of_nodup_append (List.Nodup.of_append_left hu)
    exact hd hcsub hcb
  · have hcsub : c ∈ (l₂.map (fun kv => kv.2.children)).flatten := by
      rw [List.mem_flatten]
      exact ⟨nk.children, List.mem_map.2 ⟨(k, nk), hmem, rfl⟩, hck⟩
    have hd := List.disjoint_of_nodup_append hu
    exact hd (by simp [hcb]) hcsub

/-- Any sub-list of lists has a flattening that is a sub-list of the whole. -/
theorem flatten_sublist_of_sublist {L L' : List (List String)} (h : L.Sublist L') :
    L.flatten.Sublist L'.flatten := by
  induction h with
  | slnil => exact List.Sublist.refl _
  | cons l hsub ih =>
      rw [List.flatten_cons]
      exact ih.trans (List.sublist_append_right _ _)
  | cons₂ l hsub ih =>
      rw [List.flatten_cons, List.flatten_cons]
      exact List.Sublist.append (List.Sublist.refl _) ih

theorem mem_dictMapVals {d : List (String × DeptNode)} {f : DeptNode → DeptNode}
    {kv : String × DeptNode} (h : kv ∈ dictMapVals d f) :
    ∃ w, (kv.1, w) ∈ d ∧ kv.2 = f w := by
  rw [dictMapVals] at h
  obtain ⟨a, ha, hee⟩ := List.mem_map.1 h
  refine ⟨a.2, ?_, ?_⟩
  · rw [← hee]; exact ha
  · rw [← hee]

theorem allChildNames_find_parent_and_remove {s : State} {X : String} :
    allChildNames (s.find_parent_and_remove X) =
      (allChildNames s).filter (fun c => c != X) := by
  rw [allChildNames, allChildNames, List.filter_flatten]
  show ((dictMapVals s.nodes
      (fun n => { n with children := n.children.filter (fun c => c != X) })).map
      (fun kv => kv.2.children)).flatten = _
  rw [dictMapVals, List.map_map, List.map_map]
  rfl

theorem Inv_find_parent_and_remove {s : State} {X : String} (h : Inv s) :
    Inv (s.find_parent_and_remove X) := by
  obtain ⟨h1, h2, h3, h4, h5, h6⟩ := h
  refine ⟨?_, ?_, ?_, ?_, ?_, ?_⟩
  · rw [keys_find_parent_and_remove]; exact h1
  · intro kv hkv
    obtain ⟨w, hw, he⟩ := mem_dictMapVals (d := s.nodes)
      (f := fun n => { n with children := n.children.filter (fun c => c != X) }) hkv
    rw [he]
    exact h2 (kv.1, w) hw
  · intro r hr
    rw [keys_find_parent_and_remove]
    exact h3 r hr
  · intro r hr hc
    rw [allChildNames_find_parent_and_remove] at hc
    exact h4 r hr (List.mem_of_mem_filter hc)
  · rw [allChildNames_find_parent_and_remove]
    exact h5.filter _
  · intro c hc
    rw [allChildNames_find_parent_and_remove] at hc
    rw [keys_find_parent_and_remove]
    exact h6 c (List.mem_of_mem_filter hc)

theorem allChildNames_append_empty {s : State} {ropt : Option String} {name : String}
    {nd : DeptNode} (hch : nd.children = []) :
    allChildNames ⟨ropt, s.nodes ++ [(name, nd)]⟩ = allChildNames s := by
  rw [allChildNames, allChildNames]
  simp [hch]

theorem Inv_add {s : State} (h : Inv s) (name : String) (parent : Option String)
    (hd : String) (emp : Int) (bud pf : Rat) :
    Inv (State.add s name parent hd emp bud pf).1 := by
  obtain ⟨h1, h2, h3, h4, h5, h6⟩ := h
  by_cases hm : dictMem s.nodes name = true
  · rw [State.add, if_pos hm]; exact ⟨h1, h2, h3, h4, h5, h6⟩
  · have hfresh : name ∉ keys s := fun hc => hm (dictMem_iff.2 hc)
    have hset : dictSet s.nodes name ⟨name, hd, emp, bud, pf, []⟩ =
        s.nodes ++ [(name, ⟨name, hd, emp, bud, pf, []⟩)] :=
      dictSet_append_of_not_mem hfresh
    -- the invariant for the two "no attachment" outcomes
    have hbase : ∀ ropt : Option String,
        (∀ r ∈ ropt.toList, r ∈ s.root.toList ∨ r = name) →
        Inv ⟨ropt, s.nodes ++ [(name, ⟨name, hd, emp, bud, pf, []⟩)]⟩ := by
      intro ropt hres
      have hkeys : keys (⟨ropt, s.nodes ++ [(name, ⟨name, hd, emp, bud, pf, []⟩)]⟩ : State) =
          keys s ++ [name] := by
        rw [keys]; simp [keys]
      have hacn : allChildNames ⟨ropt, s.nodes ++ [(name, ⟨name, hd, emp, bud, pf, []⟩)]⟩ =
          allChildNames s := allChildNames_append_empty rfl
      refine ⟨?_, ?_, ?_, ?_, ?_, ?_⟩
      · rw [hkeys, List.nodup_append]
        exact ⟨h1, List.nodup_singleton name, by simpa using fun hc => hfresh hc⟩
      · intro kv hkv
        rcases List.mem_append.1 hkv with hkv | hkv
        · exact h2 kv hkv
        · simp only [List.mem_singleton] at hkv
          rw [hkv]
      · intro r hr
        rw [hkeys]
        rcases hres r hr with hcase | hcase
        · exact List.mem_append.2 (Or.inl (h3 r hcase))
        · exact List.mem_append.2 (Or.inr (by simp [hcase]))
      · intro r hr hc
        rw [hacn] at hc
        rcases hres r hr with hcase | hcase
        · exact h4 r hcase hc
        · rw [hcase] at hc
          exact hfresh (h6 name hc)
      · rw [hacn]; exact h5
      · intro c hc
        rw [hacn] at hc
        rw [hkeys]
        exact List.mem_append.2 (Or.inl (h6 c hc))
    have hroot_old : ∀ r ∈ s.root.toList, r ∈ s.root.toList ∨ r = name :=
      fun r hrr => Or.inl hrr
    have hroot_new : ∀ r ∈ (some name : Option String).toList,
        r ∈ s.root.toList ∨ r = name := by
      intro r hrr
      exact Or.inr (by simpa using hrr)
    rcases parent with _ | p
    · by_cases hr : s.root.isNone = true
      · have heq : (State.add s name none hd emp bud pf).1 =
            ⟨some name, s.nodes ++ [(name, ⟨name, hd, emp, bud, pf, []⟩)]⟩ := by
          simp only [State.add, if_neg hm, if_pos hr, hset]
        rw [heq]
        exact hbase (some name) hroot_new
      · have heq : (State.add s name none hd emp bud pf).1 =
            ⟨s.root, s.nodes ++ [(name, ⟨name, hd, emp, bud, pf, []⟩)]⟩ := by
          simp only [State.add, if_neg hm, if_neg hr, hset]
        rw [heq]
        exact hbase s.root hroot_old
    · by_cases hp : p = ""
      · by_cases hr : s.root.isNone = true
        · have heq : (State.add s name (some p) hd emp bud pf).1 =
              ⟨some name, s.nodes ++ [(name, ⟨name, hd, emp, bud, pf, []⟩)]⟩ := by
            simp only [State.add, if_neg hm, if_pos hp, if_pos hr, hset]
          rw [heq]
          exact hbase (some name) hroot_new
        · have heq : (State.add s name (some p) hd emp bud pf).1 =
              ⟨s.root, s.nodes ++ [(name, ⟨name, hd, emp, bud, pf, []⟩)]⟩ := by
            simp only [State.add, if_neg hm, if_pos hp, if_neg hr, hset]
          rw [heq]
          exact hbase s.root hroot_old
      · rcases hgp : dictGet (s.nodes ++ [(name, ⟨name, hd, emp, bud, pf, []⟩)]) p
          with _ | pn
        · by_cases hr : s.root.isNone = true
          · have heq : (State.add s name (some p) hd emp bud pf).1 =
                ⟨some name, s.nodes ++ [(name, ⟨name, hd, emp, bud, pf, []⟩)]⟩ := by
              simp only [State.add, if_neg hm, if_neg hp, if_pos hr, hset, hgp]
            rw [heq]
            exact hbase (some name) hroot_new
          · have heq : (State.add s name (some p) hd emp bud pf).1 =
                ⟨s.root, s.nodes ++ [(name, ⟨name, hd, emp, bud, pf, []⟩)]⟩ := by
              simp only [State.add, if_neg hm, if_neg hp, if_neg hr, hset, hgp]
            rw [heq]
            exact hbase s.root hroot_old
        · -- attach below the resolved parent (which may be the fresh node itself)
          have hσ1 : Inv ⟨s.root, s.nodes ++ [(name, ⟨name, hd, emp, bud, pf, []⟩)]⟩ :=
            hbase s.root hroot_old
          obtain ⟨g1, g2, g3, g4, g5, g6⟩ := hσ1
          obtain ⟨l₁, l₂, hsplit, _⟩ := exists_split_of_dictGet hgp
          have hkeys1 : keys (⟨s.root, s.nodes ++ [(name, ⟨name, hd, emp, bud, pf, []⟩)]⟩ :
              State) = keys s ++ [name] := by
            rw [keys]; simp [keys]
          have hnset : dictSet (s.nodes ++ [(name, ⟨name, hd, emp, bud, pf, []⟩)]) p
              { pn with children := pn.children ++ [name] } = l₁ ++
                (p, { pn with children := pn.children ++ [name] }) :: l₂ := by
            rw [hsplit] at g1 ⊢
            exact dictSet_split g1
          have heq : (State.add s name (some p) hd emp bud pf).1 =
              ⟨s.root, l₁ ++ (p, { pn with children := pn.children ++ [name] }) :: l₂⟩ := by
            simp only [State.add, if_neg hm, if_neg hp, hset, hgp, hnset]
          rw [heq]
          have hA1 : allChildNames ⟨s.root, s.nodes ++
              [(name, ⟨name, hd, emp, bud, pf, []⟩)]⟩ =
              (l₁.map (fun kv => kv.2.children)).flatten ++ pn.children ++
                (l₂.map (fun kv => kv.2.children)).flatten :=
            allChildNames_split hsplit
          have hA2 : allChildNames ⟨s.root, l₁ ++
              (p, { pn with children := pn.children ++ [name] }) :: l₂⟩ =
              (l₁.map (fun kv => kv.2.children)).flatten ++ (pn.children ++ [name]) ++
                (l₂.map (fun kv => kv.2.children)).flatten :=
            allChildNames_split rfl
          have hperm : (allChildNames ⟨s.root, l₁ ++
              (p, { pn with children := pn.children ++ [name] }) :: l₂⟩).Perm
              (name :: allChildNames ⟨s.root, s.nodes ++
                [(name, ⟨name, hd, emp, bud, pf, []⟩)]⟩) := by
            rw [hA1, hA2]
            have he1 : (l₁.map (fun kv => kv.2.children)).flatten ++
                (pn.children ++ [name]) ++ (l₂.map (fun kv => kv.2.children)).flatten =
                ((l₁.map (fun kv => kv.2.children)).flatten ++ pn.children) ++
                  name :: (l₂.map (fun kv => kv.2.children)).flatten := by
              simp [List.append_assoc]
            rw [he1]
            exact List.perm_middle
          have hmem2 : ∀ c, c ∈ allChildNames ⟨s.root, l₁ ++
              (p, { pn with children := pn.children ++ [name] }) :: l₂⟩ ↔
              (c = name ∨ c ∈ allChildNames ⟨s.root, s.nodes ++
                [(name, ⟨name, hd, emp, bud, pf, []⟩)]⟩) := by
            intro c
            rw [hperm.mem_iff]
            simp
          have hkeys2 : keys (⟨s.root, l₁ ++
              (p, { pn with children := pn.children ++ [name] }) :: l₂⟩ : State) =
              keys s ++ [name] := by
            rw [← hkeys1, keys, keys, hsplit]
            simp
          have hnamefresh : name ∉ allChildNames ⟨s.root, s.nodes ++
              [(name, ⟨name, hd, emp, bud, pf, []⟩)]⟩ := by
            rw [allChildNames_append_empty rfl]
            exact fun hc => hfresh (h6 name hc)
          refine ⟨?_, ?_, ?_, ?_, ?_, ?_⟩
          · rw [hkeys2, ← hkeys1]
            exact g1
          · intro kv hkv
            rcases List.mem_append.1 hkv with hkv | hkv
            · exact g2 kv (by rw [hsplit]; exact List.mem_append.2 (Or.inl hkv))
            · rcases List.mem_cons.1 hkv with hkv | hkv
              · rw [hkv]
                exact g2 (p, pn) (by rw [hsplit]; simp)
              · exact g2 kv (by rw [hsplit]; simp [hkv])
          · intro r hr
            rw [hkeys2, ← hkeys1]
            exact g3 r hr
          · intro r hr hc
            rcases (hmem2 r).1 hc with hcase | hcase
            · rw [hcase] at hr
              have : name ∈ keys s := h3 name (by simpa using hr)
              exact hfresh this
            · exact g4 r hr hcase
          · rw [hperm.nodup_iff, List.nodup_cons]
            exact ⟨hnamefresh, g5⟩
          · intro c hc
            rw [hkeys2, ← hkeys1]
            rcases (hmem2 c).1 hc with hcase | hcase
            · rw [hcase, hkeys1]
              simp
            · exact g6 c hcase

theorem Inv_root_none {s : State} (h : Inv s) : Inv { s with root := none } := by
  obtain ⟨h1, h2, h3, h4, h5, h6⟩ := h
  exact ⟨h1, h2, by simp, by simp, h5, h6⟩

theorem bnot_contains_iff {L : List String} {x : String} :
    (!L.contains x) = true ↔ x ∉ L := by
  rw [Bool.not_eq_true', ← Bool.not_eq_true, contains_iff_mem]

theorem map_fst_filter_key {d : List (String × DeptNode)} {L : List String} :
    (d.filter (fun kv => !L.contains kv.1)).map Prod.fst =
      (d.map Prod.fst).filter (fun x => !L.contains x) := by
  induction d with
  | nil => rfl
  | cons kv rest ih =>
      obtain ⟨k₀, v₀⟩ := kv
      by_cases hk : (!L.contains k₀) = true
      · rw [List.filter_cons, if_pos hk, List.map_cons, List.map_cons,
          List.filter_cons, if_pos hk]
        exact congrArg _ ih
      · rw [List.filter_cons, if_neg hk, List.map_cons, List.filter_cons, if_neg hk]
        exact ih

theorem bfsLoop_acc_subset {s : State} :
    ∀ (fuel : Nat) (pending acc : List String), acc ⊆ bfsLoop s fuel pending acc := by
  intro fuel
  induction fuel with
  | zero =>
      intro pending acc
      cases pending with
      | nil => exact fun x hx => hx
      | cons c cs => exact fun x hx => List.mem_append.2 (Or.inl hx)
  | succ n ih =>
      intro pending acc
      cases pending with
      | nil => exact fun x hx => hx
      | cons cur rest =>
          rcases hg : dictGet s.nodes cur with _ | nd
          · rw [show bfsLoop s (n + 1) (cur :: rest) acc = bfsLoop s n rest (acc ++ [cur])
              from by simp only [bfsLoop, hg]]
            exact fun x hx => ih rest (acc ++ [cur]) (List.mem_append.2 (Or.inl hx))
          · rw [show bfsLoop s (n + 1) (cur :: rest) acc =
              bfsLoop s n (rest ++ nd.children) (acc ++ [cur])
              from by simp only [bfsLoop, hg]]
            exact fun x hx =>
              ih (rest ++ nd.children) (acc ++ [cur]) (List.mem_append.2 (Or.inl hx))

theorem bfsLoop_mem_source {s : State} :
    ∀ (fuel : Nat) (pending acc : List String) (x : String),
      x ∈ bfsLoop s fuel pending acc →
      x ∈ acc ∨ x ∈ pending ∨ ∃ b, b ∈ bfsLoop s fuel pending acc ∧ childOf s b x := by
  intro fuel
  induction fuel with
  | zero =>
      intro pending acc x hx
      cases pending with
      | nil => exact Or.inl hx
      | cons c cs =>
          rcases List.mem_append.1 hx with h | h
          · exact Or.inl h
          · exact Or.inr (Or.inl h)
  | succ n ih =>
      intro pending acc x hx
      cases pending with
      | nil => exact Or.inl hx
      | cons cur rest =>
          rcases hg : dictGet s.nodes cur with _ | nd
          · rw [show bfsLoop s (n + 1) (cur :: rest) acc = bfsLoop s n rest (acc ++ [cur])
              from by simp only [bfsLoop, hg]] at hx ⊢
            rcases ih rest (acc ++ [cur]) x hx with h | h | ⟨b, hb, hc⟩
            · rcases List.mem_append.1 h with h | h
              · exact Or.inl h
              · exact Or.inr (Or.inl (by simpa using Or.inl (by simpa using h)))
            · exact Or.inr (Or.inl (List.mem_cons.2 (Or.inr h)))
            · exact Or.inr (Or.inr ⟨b, hb, hc⟩)
          · rw [show bfsLoop s (n + 1) (cur :: rest) acc =
              bfsLoop s n (rest ++ nd.children) (acc ++ [cur])
              from by simp only [bfsLoop, hg]] at hx ⊢
            rcases ih (rest ++ nd.children) (acc ++ [cur]) x hx with h | h | ⟨b, hb, hc⟩
            · rcases List.mem_append.1 h with h | h
              · exact Or.inl h
              · exact Or.inr (Or.inl (by simpa using Or.inl (by simpa using h)))
            · rcases List.mem_append.1 h with h | h
              · exact Or.inr (Or.inl (List.mem_cons.2 (Or.inr h)))
              · refine Or.inr (Or.inr ⟨cur, ?_, ⟨nd, hg, h⟩⟩)
                exact bfsLoop_acc_subset n (rest ++ nd.children) (acc ++ [cur])
                  (List.mem_append.2 (Or.inr (by simp)))
            · exact Or.inr (Or.inr ⟨b, hb, hc⟩)

/-- The state after the root reset and the detach step of `delete`. -/
def deleteDetached (s : State) (name : String) : State :=
  (if s.root = some name then { s with root := none } else s).find_parent_and_remove name

/-- The final contents of the `to_delete` worklist of `delete`. -/
def deleteList (s : State) (name : String) : List String :=
  bfsLoop (deleteDetached s name) (1 + totalChildCount (deleteDetached s name)) [name] []

theorem delete_eq {s : State} {name : String} (hm : dictMem s.nodes name = true) :
    State.delete s name =
      ({ deleteDetached s name with
          nodes := (deleteDetached s name).nodes.filter
            (fun kv => !(deleteList s name).contains kv.1) }, true) := by
  simp only [State.delete, if_pos hm, deleteDetached, deleteList]

theorem delete_eq_not_mem {s : State} {name : String} (hm : ¬ dictMem s.nodes name = true) :
    State.delete s name = (s, false) := by
  rw [State.delete, if_neg hm]

/-- Filtering a closed set of names out of the dictionary preserves the
structural invariant, provided the removed set only contains `X` (which no
child entry references) and names reachable from other removed names. -/
theorem Inv_delete_filter {s1 : State} (h : Inv s1) {X : String} {td : List String}
    (hX : X ∉ allChildNames s1)
    (hsrc : ∀ x ∈ td, x = X ∨ ∃ b, b ∈ td ∧ childOf s1 b x)
    (hroot : ∀ r ∈ s1.root.toList, r ∉ td) :
    Inv { s1 with nodes := s1.nodes.filter (fun kv => !td.contains kv.1) } := by
  obtain ⟨h1, h2, h3, h4, h5, h6⟩ := h
  have hkeys : keys { s1 with nodes := s1.nodes.filter (fun kv => !td.contains kv.1) } =
      (keys s1).filter (fun x => !td.contains x) := map_fst_filter_key
  have hsub : (s1.nodes.filter (fun kv => !td.contains kv.1)).Sublist s1.nodes :=
    List.filter_sublist _
  have hacn : (allChildNames { s1 with
      nodes := s1.nodes.filter (fun kv => !td.contains kv.1) }).Sublist
      (allChildNames s1) :=
    flatten_sublist_of_sublist (hsub.map _)
  refine ⟨?_, ?_, ?_, ?_, ?_, ?_⟩
  · rw [hkeys]; exact h1.filter _
  · exact fun kv hkv => h2 kv (hsub.subset hkv)
  · intro r hr
    rw [hkeys]
    exact List.mem_filter.2 ⟨h3 r hr, bnot_contains_iff.2 (hroot r hr)⟩
  · exact fun r hr hc => h4 r hr (hacn.subset hc)
  · exact h5.sublist hacn
  · intro c hc
    rw [allChildNames, List.mem_flatten] at hc
    obtain ⟨l, hl, hcl⟩ := hc
    obtain ⟨kv, hkv, hkveq⟩ := List.mem_map.1 hl
    have hkvmem := List.mem_filter.1 hkv
    have hnotin : kv.1 ∉ td := bnot_contains_iff.1 hkvmem.2
    have hcs1 : c ∈ kv.2.children := by rw [hkveq]; exact hcl
    have hchild : childOf s1 kv.1 c :=
      ⟨kv.2, dictGet_of_mem h1 (by
        have := hkvmem.1
        simpa using this), hcs1⟩
    have hctd : c ∉ td := by
      intro hcc
      rcases hsrc c hcc with hcase | ⟨b, hb, hbc⟩
      · rw [hcase] at hchild
        exact hX (childOf_mem_allChildNames hchild)
      · have : b = kv.1 := childOf_unique h1 h5 hbc hchild
        rw [this] at hb
        exact hnotin hb
    rw [hkeys]
    exact List.mem_filter.2 ⟨h6 c (childOf_mem_allChildNames hchild),
      bnot_contains_iff.2 hctd⟩

theorem Inv_delete {s : State} (h : Inv s) (name : String) :
    Inv (State.delete s name).1 := by
  by_cases hm : dictMem s.nodes name = true
  · have h0 : Inv (if s.root = some name then { s with root := none } else s) := by
      by_cases hr : s.root = some name
      · rw [if_pos hr]; exact Inv_root_none h
      · rw [if_neg hr]; exact h
    have h1 : Inv (deleteDetached s name) := Inv_find_parent_and_remove h0
    have hX : name ∉ allChildNames (deleteDetached s name) := by
      rw [deleteDetached, allChildNames_find_parent_and_remove]
      intro hc
      have := (List.mem_filter.1 hc).2
      simp at this
    have hsrc : ∀ x ∈ deleteList s name,
        x = name ∨ ∃ b, b ∈ deleteList s name ∧ childOf (deleteDetached s name) b x := by
      intro x hx
      rcases bfsLoop_mem_source _ _ _ x hx with hc | hc | ⟨b, hb, hbc⟩
      · simp at hc
      · exact Or.inl (by simpa using hc)
      · exact Or.inr ⟨b, hb, hbc⟩
    have hrooteq : (deleteDetached s name).root =
        (if s.root = some name then none else s.root) := by
      rw [deleteDetached]
      by_cases hc2 : s.root = some name
      · rw [if_pos hc2, if_pos hc2]; rfl
      · rw [if_neg hc2, if_neg hc2]; rfl
    have hroot : ∀ r ∈ (deleteDetached s name).root.toList, r ∉ deleteList s name := by
      intro r hr hc
      have hr' := hr
      rw [hrooteq] at hr'
      by_cases hc2 : s.root = some name
      · rw [if_pos hc2] at hr'; simp at hr'
      · rw [if_neg hc2] at hr'
        have hrs : s.root = some r := by
          rcases hs : s.root with _ | r0
          · rw [hs] at hr'; simp at hr'
          · rw [hs] at hr'
            have he : r = r0 := by simpa using hr'
            rw [he]
        have hrname : r ≠ name := fun hcc => hc2 (by rw [← hcc]; exact hrs)
        rcases hsrc r hc with hcase | ⟨b, hb, hbc⟩
        · exact hrname hcase
        · obtain ⟨hh1, hh2, hh3, hh4, hh5, hh6⟩ := h1
          exact hh4 r hr (childOf_mem_allChildNames hbc)
    have hres := Inv_delete_filter h1 hX hsrc hroot
    rw [delete_eq hm]
    exact hres
  · rw [delete_eq_not_mem hm]
    exact h

theorem Inv_empty : Inv State.empty := by
  refine ⟨?_, ?_, ?_, ?_, ?_, ?_⟩ <;> simp [keys, allChildNames, State.empty]

theorem Inv_applyOp {s : State} (h : Inv s) (op : TreeOp) : Inv (applyOp s op) := by
  cases op with
  | add name parent hd emp bud pf => exact Inv_add h name parent hd emp bud pf
  | delete name => exact Inv_delete h name

theorem Inv_foldl {s : State} (h : Inv s) (ops : List TreeOp) :
    Inv (ops.foldl applyOp s) := by
  induction ops generalizing s with
  | nil => exact h
  | cons op rest ih => exact ih (Inv_applyOp h op)

/-- Chains out of a name never revisit it through a child entry pointing at a
name that is referenced nowhere; in particular a nonempty chain cannot end at
a name with no child reference. -/
theorem chain_unique_aux {s : State} (hn : (keys s).Nodup)
    (hu : (allChildNames s).Nodup) {r : String} (hr : r ∉ allChildNames s) :
    ∀ (n : Nat) (x : String) (l₁ l₂ : List String), l₁.length ≤ n →
      Chain s r x l₁ → Chain s r x l₂ → l₁ = l₂ := by
  intro n
  induction n with
  | zero =>
      intro x l₁ l₂ hlen h₁ h₂
      cases h₁ with
      | refl =>
          cases h₂ with
          | refl => rfl
          | @step b c l hch hc => exact absurd (childOf_mem_allChildNames hc) hr
      | @step b c l hch hc => simp at hlen
  | succ n ih =>
      intro x l₁ l₂ hlen h₁ h₂
      cases h₁ with
      | refl =>
          cases h₂ with
          | refl => rfl
          | @step b c l hch hc => exact absurd (childOf_mem_allChildNames hc) hr
      | @step b₁ c l hch₁ hc₁ =>
          cases h₂ with
          | refl => exact absurd (childOf_mem_allChildNames hc₁) hr
          | @step b₂ c' l' hch₂ hc₂ =>
              have hb : b₁ = b₂ := childOf_unique hn hu hc₁ hc₂
              rw [hb] at hch₁
              have hlen' : l.length ≤ n := by
                rw [List.length_append] at hlen
                simp at hlen
                omega
              rw [ih b₂ l l' hlen' hch₁ hch₂]

theorem chainUnique_of_Inv {s : State} (h : Inv s) : ChainUnique s := by
  obtain ⟨h1, h2, h3, h4, h5, h6⟩ := h
  intro r x l₁ l₂ hroot hc₁ hc₂
  have hr : r ∉ allChildNames s := h4 r (by rw [hroot]; simp)
  exact chain_unique_aux h1 h5 hr l₁.length x l₁ l₂ (Nat.le_refl _) hc₁ hc₂

/-- Three adds from the empty tree: "A" becomes root, "B" is registered but
attached nowhere (no parent given while a root exists), and "C" is registered
as its own child (its parent lookup resolves to the just-inserted node). -/
def exOrphans : State :=
  applyOps [.add "A" none "" 0 0 0, .add "B" none "" 0 0 0, .add "C" (some "C") "" 0 0 0]

theorem exOrphans_childOf {b c : String} (h : childOf exOrphans b c) :
    b = "C" ∧ c = "C" := by
  obtain ⟨n, hg, hc⟩ := h
  have hmem := dictGet_mem hg
  have hnodes : exOrphans.nodes =
      [("A", ⟨"A", "", 0, 0, 0, []⟩), ("B", ⟨"B", "", 0, 0, 0, []⟩),
       ("C", ⟨"C", "", 0, 0, 0, ["C"]⟩)] := by decide
  rw [hnodes] at hmem
  simp only [List.mem_cons, List.not_mem_nil, or_false] at hmem
  rcases hmem with hmem | hmem | hmem
  · rw [show n = ⟨"A", "", 0, 0, 0, []⟩ from congrArg Prod.snd hmem] at hc
    simp at hc
  · rw [show n = ⟨"B", "", 0, 0, 0, []⟩ from congrArg Prod.snd hmem] at hc
    simp at hc
  · rw [show n = ⟨"C", "", 0, 0, 0, ["C"]⟩ from congrArg Prod.snd hmem] at hc
    refine ⟨congrArg Prod.fst hmem, ?_⟩
    simpa using hc

theorem exOrphans_chain_end {x : String} {l : List String}
    (h : Chain exOrphans "A" x l) : x = "A" := by
  induction h with
  | refl => rfl
  | step hch hc ih =>
      obtain ⟨hb, _⟩ := exOrphans_childOf hc
      rw [ih] at hb
      exact absurd hb (by decide)

/-- C2 counterexample.  After add("A"), add("B") (no parent), and
add("C", parent="C"), the mapping holds three names with root "A", yet both
"B" and "C" are unreachable from the root — more than the "at most one"
exception the claim allows — and "C" sits on a cycle of child links. -/
theorem C2_counterexample :
    "B" ∈ keys exOrphans ∧ "C" ∈ keys exOrphans ∧ exOrphans.root = some "A" ∧
    "B" ≠ "A" ∧ "C" ≠ "A" ∧
    ¬ Desc exOrphans "A" "B" ∧ ¬ Desc exOrphans "A" "C" ∧
    Chain exOrphans "C" "C" ["C"] := by
  refine ⟨by decide, by decide, by decide, by decide, by decide, ?_, ?_, ?_⟩
  · rintro ⟨l, hch⟩
    exact absurd (exOrphans_chain_end hch) (by decide)
  · rintro ⟨l, hch⟩
    exact absurd (exOrphans_chain_end hch) (by decide)
  · have h1 : childOf exOrphans "C" "C" :=
      ⟨⟨"C", "", 0, 0, 0, ["C"]⟩, by decide, by decide⟩
    simpa using Chain.step (Chain.refl (s := exOrphans) (a := "C")) h1

/-- C2 (amended).  After any add/delete sequence from the empty tree the
structural invariant holds — the root is registered and referenced by no
child entry, every name occurs at most once across all child sequences, and
all child references resolve — and therefore every name reachable from the
root is reachable via exactly one chain of child links.  Names unreachable
from the root can exist in the mapping, however: adds with a missing, empty
or self-referential parent leave orphans (and even an unreachable self-cycle)
behind. -/
theorem C2_amended :
    ∀ ops : List TreeOp, Inv (applyOps ops) ∧ ChainUnique (applyOps ops) :=
  fun ops =>
    ⟨Inv_foldl Inv_empty ops, chainUnique_of_Inv (Inv_foldl Inv_empty ops)⟩

/-- Witness for the amended C2: the invariant holds after building the
two-node tree, and the unique-chain property applied to the concrete chain
root-to-"B". -/
theorem C2_amended_witness :
    Inv (applyOps [TreeOp.add "A" none "" 0 0 0, TreeOp.add "B" (some "A") "" 0 0 0]) ∧
    ([] ++ ["B"] : List String) = [] ++ ["B"] := by
  have h := C2_amended [TreeOp.add "A" none "" 0 0 0, TreeOp.add "B" (some "A") "" 0 0 0]
  refine ⟨h.1, ?_⟩
  have hb : childOf (applyOps [TreeOp.add "A" none "" 0 0 0,
      TreeOp.add "B" (some "A") "" 0 0 0]) "A" "B" :=
    ⟨⟨"A", "", 0, 0, 0, ["B"]⟩, by decide, by decide⟩
  have hc : Chain (applyOps [TreeOp.add "A" none "" 0 0 0,
      TreeOp.add "B" (some "A") "" 0 0 0]) "A" "B" ([] ++ ["B"]) :=
    Chain.step Chain.refl hb
  exact h.2 "A" "B" ([] ++ ["B"]) ([] ++ ["B"]) (by decide) hc hc

/-! Claim C4: delete removes exactly the traversed subtree. -/

theorem deleteDetached_nodes {s : State} {X : String} :
    (deleteDetached s X).nodes = dictMapVals s.nodes
      (fun n => { n with children := n.children.filter (fun c => c != X) }) := by
  rw [deleteDetached]
  by_cases hc : s.root = some X
  · rw [if_pos hc]; rfl
  · rw [if_neg hc]; rfl

theorem deleteDetached_root {s : State} {X : String} :
    (deleteDetached s X).root = (if s.root = some X then none else s.root) := by
  rw [deleteDetached]
  by_cases hc : s.root = some X
  · rw [if_pos hc, if_pos hc]; rfl
  · rw [if_neg hc, if_neg hc]; rfl

theorem keys_deleteDetached {s : State} {X : String} :
    keys (deleteDetached s X) = keys s := by
  rw [keys, deleteDetached_nodes, map_fst_dictMapVals]; rfl

theorem childOf_deleteDetached {s : State} {X b c : String} :
    childOf (deleteDetached s X) b c ↔ (childOf s b c ∧ c ≠ X) := by
  constructor
  · rintro ⟨n, hg, hc⟩
    rw [deleteDetached_nodes, dictGet_dictMapVals] at hg
    rcases hg0 : dictGet s.nodes b with _ | n0
    · rw [hg0] at hg; cases hg
    · rw [hg0] at hg
      have hn : n = { n0 with children := n0.children.filter (fun c => c != X) } :=
        (Option.some.inj hg).symm
      rw [hn] at hc
      have := List.mem_filter.1 hc
      exact ⟨⟨n0, hg0, this.1⟩, by simpa using this.2⟩
  · rintro ⟨⟨n0, hg, hc⟩, hne⟩
    refine ⟨{ n0 with children := n0.children.filter (fun c => c != X) }, ?_, ?_⟩
    · rw [deleteDetached_nodes, dictGet_dictMapVals, hg]; rfl
    · exact List.mem_filter.2 ⟨hc, by simpa using hne⟩

theorem desc_deleteDetached {s : State} {X y : String} :
    Desc s X y ↔ Desc (deleteDetached s X) X y := by
  constructor
  · rintro ⟨l, hch⟩
    induction hch with
    | refl => exact ⟨[], Chain.refl⟩
    | @step b c l' hch' hc ih =>
        by_cases hcx : c = X
        · rw [hcx]; exact ⟨[], Chain.refl⟩
        · obtain ⟨l'', hch''⟩ := ih
          exact ⟨l'' ++ [c], Chain.step hch'' (childOf_deleteDetached.2 ⟨hc, hcx⟩)⟩
  · rintro ⟨l, hch⟩
    induction hch with
    | refl => exact ⟨[], Chain.refl⟩
    | @step b c l' hch' hc ih =>
        obtain ⟨l'', hch''⟩ := ih
        exact ⟨l'' ++ [c], Chain.step hch'' (childOf_deleteDetached.1 hc).1⟩

theorem bfsLoop_desc {s1 : State} {X : String} :
    ∀ (fuel : Nat) (pending acc : List String),
      (∀ y ∈ acc, Desc s1 X y) → (∀ y ∈ pending, Desc s1 X y) →
      ∀ y ∈ bfsLoop s1 fuel pending acc, Desc s1 X y := by
  intro fuel
  induction fuel with
  | zero =>
      intro pending acc hacc hpend y hy
      cases pending with
      | nil => exact hacc y hy
      | cons c cs =>
          rcases List.mem_append.1 hy with h | h
          · exact hacc y h
          · exact hpend y h
  | succ n ih =>
      intro pending acc hacc hpend y hy
      cases pending with
      | nil => exact hacc y hy
      | cons cur rest =>
          rcases hg : dictGet s1.nodes cur with _ | nd
          · rw [show bfsLoop s1 (n + 1) (cur :: rest) acc = bfsLoop s1 n rest (acc ++ [cur])
              from by simp only [bfsLoop, hg]] at hy
            refine ih rest (acc ++ [cur]) ?_ (fun z hz => hpend z (by simp [hz])) y hy
            intro z hz
            rcases List.mem_append.1 hz with h | h
            · exact hacc z h
            · exact hpend z (by simp at h; simp [h])
          · rw [show bfsLoop s1 (n + 1) (cur :: rest) acc =
              bfsLoop s1 n (rest ++ nd.children) (acc ++ [cur])
              from by simp only [bfsLoop, hg]] at hy
            have hcur : Desc s1 X cur := hpend cur (by simp)
            refine ih (rest ++ nd.children) (acc ++ [cur]) ?_ ?_ y hy
            · intro z hz
              rcases List.mem_append.1 hz with h | h
              · exact hacc z h
              · exact hpend z (by simp at h; simp [h])
            · intro z hz
              rcases List.mem_append.1 hz with h | h
              · exact hpend z (by simp [h])
              · obtain ⟨l, hch⟩ := hcur
                exact ⟨l ++ [z], Chain.step hch ⟨nd, hg, h⟩⟩

theorem children_nodup {s : State} (h5 : (allChildNames s).Nodup) {k : String}
    {n : DeptNode} (hm : (k, n) ∈ s.nodes) : n.children.Nodup := by
  rw [allChildNames, List.nodup_flatten] at h5
  exact h5.1 n.children (List.mem_map.2 ⟨(k, n), hm, rfl⟩)

theorem bfsLoop_complete {s1 : State} {X : String}
    (h1 : (keys s1).Nodup) (h5 : (allChildNames s1).Nodup)
    (h6 : ∀ c ∈ allChildNames s1, c ∈ keys s1)
    (hX : X ∉ allChildNames s1) (hXk : X ∈ keys s1) :
    ∀ (fuel : Nat) (pending acc : List String),
      (acc ++ pending).Nodup →
      (∀ x ∈ acc ++ pending, x = X ∨ x ∈ allChildNames s1) →
      (∀ b ∈ acc, ∀ c, childOf s1 b c → c ∈ acc ++ pending) →
      (∀ x ∈ acc ++ pending, x = X ∨ ∃ b ∈ acc, childOf s1 b x) →
      fuel + acc.length ≥ 1 + totalChildCount s1 →
      (∀ b ∈ bfsLoop s1 fuel pending acc, ∀ c, childOf s1 b c →
        c ∈ bfsLoop s1 fuel pending acc) ∧
      (acc ++ pending) ⊆ bfsLoop s1 fuel pending acc := by
  intro fuel
  induction fuel with
  | zero =>
      intro pending acc hnd huniv hclosed hsrc hfuel
      cases pending with
      | nil =>
          refine ⟨fun b hb c hc => ?_, fun x hx => ?_⟩
          · have h2 : c ∈ acc ++ [] := hclosed b hb c hc
            have h3 : c ∈ acc := by simpa using h2
            exact h3
          · have h3 : x ∈ acc := by simpa using hx
            exact h3
      | cons cur rest =>
          exfalso
          have hsub : (acc ++ cur :: rest) ⊆ X :: allChildNames s1 := by
            intro x hx
            rcases huniv x hx with h | h
            · simp [h]
            · simp [h]
          have hle := (hnd.subperm hsub).length_le
          rw [List.length_append, List.length_cons, List.length_cons] at hle
          rw [totalChildCount] at hfuel
          omega
  | succ n ih =>
      intro pending acc hnd huniv hclosed hsrc hfuel
      cases pending with
      | nil =>
          refine ⟨fun b hb c hc => ?_, fun x hx => ?_⟩
          · have h2 : c ∈ acc ++ [] := hclosed b hb c hc
            have h3 : c ∈ acc := by simpa using h2
            exact h3
          · have h3 : x ∈ acc := by simpa using hx
            exact h3
      | cons cur rest =>
          rcases hg : dictGet s1.nodes cur with _ | nd
          · exfalso
            have hck : cur ∈ keys s1 := by
              rcases huniv cur (by simp) with h | h
              · rw [h]; exact hXk
              · exact h6 cur h
            rw [mem_keys_iff, hg] at hck
            cases hck
          · rw [show bfsLoop s1 (n + 1) (cur :: rest) acc =
              bfsLoop s1 n (rest ++ nd.children) (acc ++ [cur])
              from by simp only [bfsLoop, hg]]
            have hnd0 : ((acc ++ [cur]) ++ rest).Nodup := by
              rw [← List.append_cons]; exact hnd
            have hcurnotacc : cur ∉ acc := fun hc =>
              (List.disjoint_of_nodup_append hnd) hc (by simp)
            have hchildnodup : nd.children.Nodup := children_nodup h5 (dictGet_mem hg)
            have hdisj : ∀ c ∈ (acc ++ [cur]) ++ rest, c ∉ nd.children := by
              intro c hc hcc
              have hcchild : childOf s1 cur c := ⟨nd, hg, hcc⟩
              have hc' : c ∈ acc ++ cur :: rest := by rw [List.append_cons]; exact hc
              rcases hsrc c hc' with hcase | ⟨b, hb, hbc⟩
              · rw [hcase] at hcchild
                exact hX (childOf_mem_allChildNames hcchild)
              · have hbcur : b = cur := childOf_unique h1 h5 hbc hcchild
                rw [hbcur] at hb
                exact hcurnotacc hb
            have hnd' : ((acc ++ [cur]) ++ (rest ++ nd.children)).Nodup := by
              rw [← List.append_assoc, List.nodup_append]
              exact ⟨hnd0, hchildnodup, fun c hc hcc => hdisj c hc hcc⟩
            have huniv' : ∀ x ∈ (acc ++ [cur]) ++ (rest ++ nd.children),
                x = X ∨ x ∈ allChildNames s1 := by
              intro x hx
              rw [← List.append_assoc] at hx
              rcases List.mem_append.1 hx with h | h
              · exact huniv x (by rw [List.append_cons]; exact h)
              · exact Or.inr (mem_allChildNames_of_mem (dictGet_mem hg) h)
            have hclosed' : ∀ b ∈ acc ++ [cur], ∀ c, childOf s1 b c →
                c ∈ (acc ++ [cur]) ++ (rest ++ nd.children) := by
              intro b hb c hc
              rcases List.mem_append.1 hb with h | h
              · have hthis : c ∈ (acc ++ [cur]) ++ rest := by
                  rw [← List.append_cons]; exact hclosed b h c hc
                rcases List.mem_append.1 hthis with h2 | h2
                · exact List.mem_append.2 (Or.inl h2)
                · exact List.mem_append.2 (Or.inr (List.mem_append.2 (Or.inl h2)))
              · obtain ⟨n', hg', hc'⟩ := hc
                have hb' : b = cur := by simpa using h
                rw [hb', hg] at hg'
                rw [← Option.some.inj hg'] at hc'
                exact List.mem_append.2 (Or.inr (List.mem_append.2 (Or.inr hc')))
            have hsrc' : ∀ x ∈ (acc ++ [cur]) ++ (rest ++ nd.children),
                x = X ∨ ∃ b ∈ acc ++ [cur], childOf s1 b x := by
              intro x hx
              rw [← List.append_assoc] at hx
              rcases List.mem_append.1 hx with h | h
              · rcases hsrc x (by rw [List.append_cons]; exact h) with hcase | ⟨b, hb, hbc⟩
                · exact Or.inl hcase
                · exact Or.inr ⟨b, List.mem_append.2 (Or.inl hb), hbc⟩
              · exact Or.inr ⟨cur, by simp, ⟨nd, hg, h⟩⟩
            have hfuel' : n + (acc ++ [cur]).length ≥ 1 + totalChildCount s1 := by
              rw [List.length_append, List.length_singleton]
              omega
            obtain ⟨hcl, hsub2⟩ := ih (rest ++ nd.children) (acc ++ [cur]) hnd' huniv'
              hclosed' hsrc' hfuel'
            refine ⟨hcl, fun x hx => hsub2 ?_⟩
            rw [List.append_cons] at hx
            rw [← List.append_assoc]
            rcases List.mem_append.1 hx with h | h
            · exact List.mem_append.2 (Or.inl (List.mem_append.2 (Or.inl (by
                rcases List.mem_append.1 h with h3 | h3
                · exact List.mem_append.2 (Or.inl h3)
                · exact List.mem_append.2 (Or.inr h3)))))
            · exact List.mem_append.2 (Or.inl (List.mem_append.2 (Or.inr h)))

theorem deleteList_iff {s : State} {X : String} (h : Inv s) (hXk : X ∈ keys s) :
    ∀ y, y ∈ deleteList s X ↔ Desc (deleteDetached s X) X y := by
  have h0 : Inv (if s.root = some X then { s with root := none } else s) := by
    by_cases hr : s.root = some X
    · rw [if_pos hr]; exact Inv_root_none h
    · rw [if_neg hr]; exact h
  have h1 : Inv (deleteDetached s X) := Inv_find_parent_and_remove h0
  obtain ⟨g1, g2, g3, g4, g5, g6⟩ := h1
  have hX : X ∉ allChildNames (deleteDetached s X) := by
    rw [deleteDetached, allChildNames_find_parent_and_remove]
    intro hc
    have := (List.mem_filter.1 hc).2
    simp at this
  have hXk1 : X ∈ keys (deleteDetached s X) := by rw [keys_deleteDetached]; exact hXk
  intro y
  constructor
  · intro hy
    refine bfsLoop_desc _ _ _ (by simp) ?_ y hy
    intro z hz
    rw [show z = X by simpa using hz]
    exact ⟨[], Chain.refl⟩
  · intro hy
    obtain ⟨hcl, hsub⟩ := bfsLoop_complete g1 g5 g6 hX hXk1
      (1 + totalChildCount (deleteDetached s X)) [X] []
      (by simp) (fun x hx => Or.inl (by simpa using hx))
      (by intro b hb c hc; exact absurd hb (by simp))
      (fun x hx => Or.inl (by simpa using hx))
      (by simp)
    obtain ⟨l, hch⟩ := hy
    have hstart : X ∈ deleteList s X := hsub (by simp)
    induction hch with
    | refl => exact hstart
    | step hch' hc ih => exact hcl _ ih _ hc

/-- C4.  delete(X) succeeds exactly when X is registered: it removes from the
mapping exactly X together with every name reachable from X via child links
(the subtree computed by the worklist traversal) and no other name; the root
reference is unset when X was the root; deleting an unregistered name fails
and changes nothing. -/
theorem C4_delete_exact :
    ∀ s X, Inv s →
      (X ∈ keys s →
        (s.delete X).2 = true ∧
        (∀ y, y ∈ keys (s.delete X).1 ↔ y ∈ keys s ∧ ¬ Desc s X y) ∧
        (s.root = some X → (s.delete X).1.root = none)) ∧
      (X ∉ keys s → s.delete X = (s, false)) := by
  intro s X hInv
  constructor
  · intro hXk
    have hm : dictMem s.nodes X = true := dictMem_iff.2 hXk
    rw [delete_eq hm]
    refine ⟨rfl, ?_, ?_⟩
    · intro y
      have hkeys : keys ({ deleteDetached s X with
          nodes := (deleteDetached s X).nodes.filter
            (fun kv => !(deleteList s X).contains kv.1) }) =
          (keys (deleteDetached s X)).filter
            (fun x => !(deleteList s X).contains x) := map_fst_filter_key
      rw [show keys ({ deleteDetached s X with
          nodes := (deleteDetached s X).nodes.filter
            (fun kv => !(deleteList s X).contains kv.1) }, true).1 =
          (keys (deleteDetached s X)).filter
            (fun x => !(deleteList s X).contains x) from hkeys]
      rw [List.mem_filter, keys_deleteDetached]
      constructor
      · rintro ⟨hy1, hy2⟩
        refine ⟨hy1, fun hdesc => ?_⟩
        have hmem : y ∈ deleteList s X :=
          (deleteList_iff hInv hXk y).2 (desc_deleteDetached.1 hdesc)
        exact bnot_contains_iff.1 hy2 hmem
      · rintro ⟨hy1, hy2⟩
        refine ⟨hy1, bnot_contains_iff.2 fun hmem => ?_⟩
        exact hy2 (desc_deleteDetached.2 ((deleteList_iff hInv hXk y).1 hmem))
    · intro hroot
      show (deleteDetached s X).root = none
      rw [deleteDetached_root, if_pos hroot]
  · intro hXk
    exact delete_eq_not_mem (fun hc => hXk (dictMem_iff.1 hc))

instance instDecidableInv (s : State) : Decidable (Inv s) := by
  unfold Inv
  infer_instance

/-- Witness for C4 at the two-node tree: deleting the root "A" succeeds,
removes the reachable "B" from the mapping, and unsets the root. -/
theorem C4_delete_exact_witness :
    (exAB.delete "A").2 = true ∧
    ("B" ∈ keys (exAB.delete "A").1 ↔ "B" ∈ keys exAB ∧ ¬ Desc exAB "A" "B") ∧
    (exAB.delete "A").1.root = none :=
  ⟨((C4_delete_exact exAB "A" (by decide)).1 (by decide)).1,
   ((C4_delete_exact exAB "A" (by decide)).1 (by decide)).2.1 "B",
   ((C4_delete_exact exAB "A" (by decide)).1 (by decide)).2.2 (by decide)⟩

/-! Claim C5: rename with reference fixup. -/

mutual
/-- Relabel every node carrying label `x` to `y`, keeping everything else.
Under unique names this substitutes the one renamed position. -/
def DTree.renameLabel (x y : String) : DTree → DTree
  | .empty => .empty
  | .node nm hd emp bud pf cs =>
      .node (if nm = x then y else nm) hd emp bud pf (DTree.renameLabelList x y cs)

def DTree.renameLabelList (x y : String) : List DTree → List DTree
  | [] => []
  | t :: ts => DTree.renameLabel x y t :: DTree.renameLabelList x y ts
end

theorem renameLabelList_eq_map {x y : String} :
    ∀ ts : List DTree, DTree.renameLabelList x y ts = ts.map (DTree.renameLabel x y)
  | [] => rfl
  | t :: ts => by rw [DTree.renameLabelList, List.map_cons, renameLabelList_eq_map ts]

theorem dictDel_split {l₁ l₂ : List (String × DeptNode)} {k : String} {v : DeptNode}
    (h1 : k ∉ l₁.map Prod.fst) (h2 : k ∉ l₂.map Prod.fst) :
    dictDel (l₁ ++ (k, v) :: l₂) k = l₁ ++ l₂ := by
  induction l₁ with
  | nil =>
      rw [List.nil_append, dictDel, List.filter_cons, if_neg (by simp)]
      rw [List.nil_append]
      induction l₂ with
      | nil => rfl
      | cons a t ih =>
          simp only [List.map_cons, List.mem_cons, not_or] at h2
          rw [List.filter_cons, if_pos (by simp; exact fun hc => h2.1 hc.symm)]
          exact congrArg _ (ih h2.2)
  | cons a t ih =>
      simp only [List.map_cons, List.mem_cons, not_or] at h1
      rw [List.cons_append, dictDel, List.filter_cons,
        if_pos (by simp; exact fun hc => h1.1 hc.symm)]
      rw [List.cons_append]
      exact congrArg _ (ih h1.2)

theorem dictMapVals_length {d : List (String × DeptNode)} {f : DeptNode → DeptNode} :
    (dictMapVals d f).length = d.length := List.length_map _ _

theorem applyRename_eq {s : State} {X Y : String} {n0 : DeptNode}
    (hget : dictGet s.nodes X = some n0) :
    applyRename s X Y = ⟨(if s.root = some X then some Y else s.root),
      dictMapVals (dictDel (dictSet s.nodes Y { n0 with name := Y }) X)
        (fun n =>
          { n with children := n.children.map (fun c => if c = X then Y else c) })⟩ := by
  rw [applyRename, hget]

theorem applyRename_dictGet_newName {s : State} {X Y : String} {n0 : DeptNode}
    (hget : dictGet s.nodes X = some n0) (hXY : Y ≠ X) :
    dictGet (applyRename s X Y).nodes Y =
      some { n0 with
             name := Y,
             children := n0.children.map (fun c => if c = X then Y else c) } := by
  simp only [applyRename_eq hget]
  rw [dictGet_dictMapVals, dictGet_dictDel_ne hXY, dictGet_dictSet_same]
  rfl

theorem applyRename_dictGet_old {s : State} {X Y : String} {n0 : DeptNode}
    (hget : dictGet s.nodes X = some n0) :
    dictGet (applyRename s X Y).nodes X = none := by
  simp only [applyRename_eq hget]
  rw [dictGet_dictMapVals, dictGet_dictDel_same]
  rfl

theorem applyRename_dictGet_other {s : State} {X Y k : String} {n0 : DeptNode}
    (hget : dictGet s.nodes X = some n0) (hkX : k ≠ X) (hkY : k ≠ Y) :
    dictGet (applyRename s X Y).nodes k =
      (dictGet s.nodes k).map (fun n => { n with
        children := n.children.map (fun c => if c = X then Y else c) }) := by
  simp only [applyRename_eq hget]
  rw [dictGet_dictMapVals, dictGet_dictDel_ne hkX, dictGet_dictSet_ne hkY]

theorem applyRename_root {s : State} {X Y : String} {n0 : DeptNode}
    (hget : dictGet s.nodes X = some n0) :
    (applyRename s X Y).root = (if s.root = some X then some Y else s.root) := by
  simp only [applyRename_eq hget]

theorem applyRename_nodes_length {s : State} {X Y : String} {n0 : DeptNode}
    (hget : dictGet s.nodes X = some n0) (hn : (keys s).Nodup) (hY : Y ∉ keys s)
    (hXY : Y ≠ X) :
    (applyRename s X Y).nodes.length = s.nodes.length := by
  obtain ⟨l₁, l₂, hsp, hl1⟩ := exists_split_of_dictGet hget
  have hl2 : X ∉ l₂.map Prod.fst := by
    rw [keys, hsp] at hn
    simp only [List.map_append, List.map_cons] at hn
    have hrest := (List.nodup_append.1 hn).2.1
    rw [List.nodup_cons] at hrest
    exact hrest.1
  simp only [applyRename_eq hget]
  rw [dictMapVals_length, dictSet_append_of_not_mem hY]
  rw [show dictDel (s.nodes ++ [(Y, { n0 with name := Y })]) X =
      dictDel s.nodes X ++ dictDel [(Y, { n0 with name := Y })] X from
    List.filter_append _ _]
  rw [show dictDel [(Y, { n0 with name := Y })] X = [(Y, { n0 with name := Y })] from by
    rw [dictDel, List.filter_cons, if_pos (by simp; exact fun hc => hXY hc)]
    rfl]
  rw [hsp, dictDel_split hl1 hl2]
  simp only [List.length_append, List.length_cons, List.length_nil,
    List.length_singleton]
  omega

theorem applyRename_not_child {s : State} {X Y : String} {n0 : DeptNode}
    (hget : dictGet s.nodes X = some n0) (hXY : Y ≠ X) :
    X ∉ allChildNames (applyRename s X Y) := by
  simp only [applyRename_eq hget]
  intro hc
  rw [allChildNames, List.mem_flatten] at hc
  obtain ⟨l, hl, hcl⟩ := hc
  obtain ⟨kv, hkv, hkveq⟩ := List.mem_map.1 hl
  obtain ⟨w, hw, hweq⟩ := mem_dictMapVals
    (d := dictDel (dictSet s.nodes Y { n0 with name := Y }) X)
    (f := fun n =>
      { n with children := n.children.map (fun c => if c = X then Y else c) }) hkv
  rw [← hkveq, hweq] at hcl
  obtain ⟨c, hcmem, hceq⟩ := List.mem_map.1 hcl
  by_cases hcx : c = X
  · rw [if_pos hcx] at hceq
    exact hXY hceq
  · rw [if_neg hcx] at hceq
    exact hcx hceq

theorem toDictNode_rename {s : State} {X Y : String} {n0 : DeptNode}
    (hget : dictGet s.nodes X = some n0)
    (hname : ∀ kv ∈ s.nodes, kv.2.name = kv.1)
    (hclosed : ∀ c ∈ allChildNames s, c ∈ keys s)
    (hY : Y ∉ keys s) (hXY : Y ≠ X) :
    ∀ fuel : Nat, ∀ c ∈ keys s,
      toDictNode (applyRename s X Y) fuel (if c = X then Y else c) =
        DTree.renameLabel X Y (toDictNode s fuel c) := by
  intro fuel
  induction fuel with
  | zero => intro c hc; rfl
  | succ f ih =>
      intro c hc
      by_cases hcx : c = X
      · rw [if_pos hcx]
        rw [hcx] at hc
        have hL : toDictNode (applyRename s X Y) (f + 1) Y =
            DTree.node Y n0.head n0.employees n0.budget n0.perf
              ((n0.children.map (fun ch => if ch = X then Y else ch)).map
                (toDictNode (applyRename s X Y) f)) := by
          simp only [toDictNode, applyRename_dictGet_newName hget hXY]
        have hR : toDictNode s (f + 1) X =
            DTree.node n0.name n0.head n0.employees n0.budget n0.perf
              (n0.children.map (toDictNode s f)) := by
          simp only [toDictNode, hget]
        rw [hcx, hL, hR]
        simp only [DTree.renameLabel]
        have hn0 : n0.name = X := hname (X, n0) (dictGet_mem hget)
        rw [hn0, if_pos rfl]
        congr 1
        rw [List.map_map, renameLabelList_eq_map, List.map_map]
        apply List.map_congr_left
        intro ch hch
        exact ih ch (hclosed ch (mem_allChildNames_of_mem (dictGet_mem hget) hch))
      · rw [if_neg hcx]
        have hcy : c ≠ Y := fun hcc => hY (hcc ▸ hc)
        obtain ⟨n, hgc⟩ := exists_dictGet_of_mem_keys hc
        have hL : toDictNode (applyRename s X Y) (f + 1) c =
            DTree.node n.name n.head n.employees n.budget n.perf
              ((n.children.map (fun ch => if ch = X then Y else ch)).map
                (toDictNode (applyRename s X Y) f)) := by
          simp only [toDictNode, applyRename_dictGet_other hget hcx hcy, hgc,
            Option.map_some']
        have hR : toDictNode s (f + 1) c =
            DTree.node n.name n.head n.employees n.budget n.perf
              (n.children.map (toDictNode s f)) := by
          simp only [toDictNode, hgc]
        rw [hL, hR]
        simp only [DTree.renameLabel]
        have hnc : n.name = c := hname (c, n) (dictGet_mem hgc)
        rw [hnc, if_neg hcx]
        congr 1
        rw [List.map_map, renameLabelList_eq_map, List.map_map]
        apply List.map_congr_left
        intro ch hch
        exact ih ch (hclosed ch (mem_allChildNames_of_mem (dictGet_mem hgc) hch))

theorem to_dict_rename {s : State} (hInv : Inv s) {X Y : String}
    (hX : X ∈ keys s) (hY : Y ∉ keys s) (hXY : Y ≠ X) :
    State.to_dict (applyRename s X Y) = DTree.renameLabel X Y s.to_dict := by
  obtain ⟨h1, h2, h3, h4, h5, h6⟩ := hInv
  obtain ⟨n0, hget⟩ := exists_dictGet_of_mem_keys hX
  have hlen := applyRename_nodes_length hget h1 hY hXY
  rw [State.to_dict, State.to_dict, applyRename_root hget]
  rcases hr : s.root with _ | r
  · rw [if_neg (by simp)]
    rfl
  · have hrk : r ∈ keys s := h3 r (by rw [hr]; simp)
    by_cases hrx : r = X
    · subst hrx
      rw [if_pos rfl, hlen]
      have h' := toDictNode_rename hget h2 h6 hY hXY (s.nodes.length + 1) r hrk
      rw [if_pos rfl] at h'
      exact h'
    · rw [if_neg (by simp [hrx]), hlen]
      have h' := toDictNode_rename hget h2 h6 hY hXY (s.nodes.length + 1) r hrk
      rw [if_neg hrx] at h'
      exact h'

/-- C5 counterexample.  The empty string is a name outside the mapping, yet
edit("A", new_name="") succeeds without renaming: the mapping still has no
entry for "" and still maps "A", contradicting the claim as universally
stated over every absent new name. -/
theorem C5_counterexample :
    "" ∉ keys exA ∧ "A" ∈ keys exA ∧
    (exA.edit "A" (some "") none none none none none).2 = .success ∧
    dictGet (exA.edit "A" (some "") none none none none none).1.nodes "" = none ∧
    dictGet (exA.edit "A" (some "") none none none none none).1.nodes "A" ≠ none := by
  exact ⟨by decide, by decide, by decide, by decide, by decide⟩

/-- C5 (amended).  For a nonempty new name Y absent from the mapping, renaming
X to Y succeeds; serializing shows the old tree with the label X replaced by Y
in place (same position, attributes and children); the mapping now maps Y to
the node and no longer maps X; and no node anywhere still references X
(not as a key, not as a child entry, not as the root). -/
theorem C5_amended :
    ∀ (s : State) (X Y : String), Inv s → X ∈ keys s → Y ∉ keys s → Y ≠ "" →
      (s.edit X (some Y) none none none none none).2 = .success ∧
      State.to_dict (s.edit X (some Y) none none none none none).1 =
        DTree.renameLabel X Y s.to_dict ∧
      (∃ n0, dictGet s.nodes X = some n0 ∧
        dictGet (s.edit X (some Y) none none none none none).1.nodes Y =
          some { n0 with
                 name := Y,
                 children := n0.children.map (fun c => if c = X then Y else c) }) ∧
      dictGet (s.edit X (some Y) none none none none none).1.nodes X = none ∧
      X ∉ allChildNames (s.edit X (some Y) none none none none none).1 ∧
      (s.edit X (some Y) none none none none none).1.root ≠ some X := by
  intro s X Y hInv hX hY hYe
  obtain ⟨n0, hget⟩ := exists_dictGet_of_mem_keys hX
  have hXY : Y ≠ X := fun hc => hY (hc ▸ hX)
  have hmem : ¬ dictMem s.nodes Y = true := fun hc => hY (dictMem_iff.1 hc)
  have heq : s.edit X (some Y) none none none none none =
      (applyRename s X Y, .success) := by
    rw [edit_eq_of_dictGet hget]
    simp only [editRename]
    rw [if_pos ⟨hYe, hXY⟩, if_neg hmem]
    rfl
  rw [heq]
  refine ⟨rfl, ?_, ⟨n0, hget, ?_⟩, ?_, ?_, ?_⟩
  · exact to_dict_rename hInv hX hY hXY
  · exact applyRename_dictGet_newName hget hXY
  · exact applyRename_dictGet_old hget
  · exact applyRename_not_child hget hXY
  · show (applyRename s X Y).root ≠ some X
    rw [applyRename_root hget]
    by_cases hc : s.root = some X
    · rw [if_pos hc]
      simp [hXY]
    · rw [if_neg hc]
      exact hc

/-- Witness for the amended C5 at the concrete scenario: add("A"),
add("B", parent="A"), edit("A", new_name="C") — the rename succeeds, the
serialization is the old one relabelled, and "A" is gone from the mapping. -/
theorem C5_amended_witness :
    (exAB.edit "A" (some "C") none none none none none).2 = .success ∧
    State.to_dict (exAB.edit "A" (some "C") none none none none none).1 =
      DTree.renameLabel "A" "C" exAB.to_dict ∧
    dictGet (exAB.edit "A" (some "C") none none none none none).1.nodes "A" = none ∧
    (exAB.edit "A" (some "C") none none none none none).1.root ≠ some "A" :=
  ⟨(C5_amended exAB "A" "C" (by decide) (by decide) (by decide) (by decide)).1,
   (C5_amended exAB "A" "C" (by decide) (by decide) (by decide) (by decide)).2.1,
   (C5_amended exAB "A" "C" (by decide) (by decide) (by decide) (by decide)).2.2.2.1,
   (C5_amended exAB "A" "C" (by decide) (by decide) (by decide) (by decide)).2.2.2.2.2⟩

/-! Claim C6: serialize / rebuild round trip. -/

/-- The label at the top of a serialized tree (`""` for the empty structure,
which never occurs below a solid tree). -/
def rootName : DTree → String
  | .empty => ""
  | .node nm _ _ _ _ _ => nm

/-- The top labels of a list of serialized trees. -/
def rootNames (ts : List DTree) : List String := ts.map rootName

mutual
/-- The dictionary entries that rebuilding a serialized tree produces, in
insertion (preorder) order: each node is registered under its label, carrying
its metadata and the top labels of its serialized children. -/
def DTree.entries : DTree → List (String × DeptNode)
  | .empty => []
  | .node nm hd emp bud pf cs =>
      (nm, ⟨nm, hd, emp, bud, pf, rootNames cs⟩) :: DTree.entriesList cs

/-- `DTree.entries` concatenated over a list of serialized trees. -/
def DTree.entriesList : List DTree → List (String × DeptNode)
  | [] => []
  | t :: ts => DTree.entries t ++ DTree.entriesList ts
end

/-- The labels of a serialized tree in preorder. -/
def DTree.names (t : DTree) : List String := t.entries.map Prod.fst

/-- `DTree.names` concatenated over a list of serialized trees. -/
def DTree.namesList (ts : List DTree) : List String :=
  (DTree.entriesList ts).map Prod.fst

mutual
/-- A serialized tree is solid when the empty structure occurs nowhere in it;
`to_dict` output is solid whenever every child reference resolves and the
fuel covers the recursion depth. -/
def DTree.solid : DTree → Bool
  | .empty => false
  | .node _ _ _ _ _ cs => DTree.solidList cs

/-- All trees of the list are solid. -/
def DTree.solidList : List DTree → Bool
  | [] => true
  | t :: ts => DTree.solid t && DTree.solidList ts
end

/-- Append `cs` to the child sequence of the entry registered under `p`. -/
def appendChildren (d : List (String × DeptNode)) (p : String) (cs : List String) :
    List (String × DeptNode) :=
  d.map (fun kv =>
    if kv.1 = p then (kv.1, { kv.2 with children := kv.2.children ++ cs }) else kv)

theorem names_node {nm hd : String} {emp : Int} {bud pf : Rat} {cs : List DTree} :
    (DTree.node nm hd emp bud pf cs).names = nm :: DTree.namesList cs := by
  rw [DTree.names, DTree.entries, List.map_cons, DTree.namesList]

theorem names_empty : DTree.empty.names = [] := by
  rw [DTree.names, DTree.entries]
  rfl

theorem namesList_cons {t : DTree} {ts : List DTree} :
    DTree.namesList (t :: ts) = t.names ++ DTree.namesList ts := by
  rw [DTree.namesList, DTree.entriesList, List.map_append, DTree.names, DTree.namesList]

theorem namesList_nil : DTree.namesList [] = [] := by
  rw [DTree.namesList, DTree.entriesList]
  rfl

theorem namesList_eq_flatten :
    ∀ ts : List DTree, DTree.namesList ts = (ts.map DTree.names).flatten
  | [] => by rw [namesList_nil, List.map_nil, List.flatten_nil]
  | t :: ts => by
      rw [namesList_cons, List.map_cons, List.flatten_cons, namesList_eq_flatten ts]

theorem solidList_iff :
    ∀ ts : List DTree, DTree.solidList ts = true ↔ ∀ t ∈ ts, t.solid = true
  | [] => by simp [DTree.solidList]
  | t :: ts => by
      rw [DTree.solidList, Bool.and_eq_true, solidList_iff ts]
      simp

theorem entries_sublen_of_mem :
    ∀ {ts : List DTree} {t : DTree}, t ∈ ts →
      t.entries.length ≤ (DTree.entriesList ts).length := by
  intro ts
  induction ts with
  | nil => intro t h; simp at h
  | cons u us ih =>
      intro t h
      rw [DTree.entriesList, List.length_append]
      rcases List.mem_cons.1 h with h | h
      · subst h; omega
      · have := ih h; omega

theorem entries_mem_of_mem {ts : List DTree} {t : DTree} (h : t ∈ ts) :
    ∀ e ∈ t.entries, e ∈ DTree.entriesList ts := by
  induction ts with
  | nil => simp at h
  | cons u us ih =>
      intro e he
      rw [DTree.entriesList, List.mem_append]
      rcases List.mem_cons.1 h with h | h
      · subst h; exact Or.inl he
      · exact Or.inr (ih h e he)

theorem names_sublen_of_mem {ts : List DTree} {t : DTree} (h : t ∈ ts) :
    t.names.length ≤ (DTree.namesList ts).length := by
  rw [DTree.names, DTree.namesList, List.length_map, List.length_map]
  exact entries_sublen_of_mem h

theorem map_fst_appendChildren {d : List (String × DeptNode)} {p : String}
    {cs : List String} : (appendChildren d p cs).map Prod.fst = d.map Prod.fst := by
  rw [appendChildren, List.map_map]
  apply List.map_congr_left
  intro kv _
  by_cases h : kv.1 = p
  · rw [Function.comp_apply, if_pos h]
  · rw [Function.comp_apply, if_neg h]

theorem appendChildren_append {d₁ d₂ : List (String × DeptNode)} {p : String}
    {cs : List String} :
    appendChildren (d₁ ++ d₂) p cs = appendChildren d₁ p cs ++ appendChildren d₂ p cs := by
  rw [appendChildren, List.map_append, appendChildren, appendChildren]

theorem appendChildren_of_not_mem {d : List (String × DeptNode)} {p : String}
    {cs : List String} (h : p ∉ d.map Prod.fst) : appendChildren d p cs = d := by
  rw [appendChildren]
  have : ∀ kv ∈ d, (if kv.1 = p then
      ((kv.1, { kv.2 with children := kv.2.children ++ cs }) : String × DeptNode)
    else kv) = kv := by
    intro kv hkv
    have hne : kv.1 ≠ p := by
      intro hc
      exact h (hc ▸ List.mem_map.2 ⟨kv, hkv, rfl⟩)
    rw [if_neg hne]
  rw [List.map_congr_left this]
  exact List.map_id d

theorem appendChildren_appendChildren {d : List (String × DeptNode)} {p : String}
    {cs₁ cs₂ : List String} :
    appendChildren (appendChildren d p cs₁) p cs₂ = appendChildren d p (cs₁ ++ cs₂) := by
  rw [appendChildren, appendChildren, appendChildren, List.map_map]
  apply List.map_congr_left
  intro kv _
  by_cases h : kv.1 = p
  · rw [Function.comp_apply, if_pos h]
    simp only [if_pos h, List.append_assoc]
  · simp only [Function.comp_apply, if_neg h]

theorem appendChildren_nil {d : List (String × DeptNode)} {p : String} :
    appendChildren d p [] = d := by
  rw [appendChildren]
  have : ∀ kv ∈ d, (if kv.1 = p then
      ((kv.1, { kv.2 with children := kv.2.children ++ [] }) : String × DeptNode)
    else kv) = kv := by
    intro kv _
    by_cases h : kv.1 = p
    · rw [if_pos h, List.append_nil]
    · rw [if_neg h]
  rw [List.map_congr_left this]
  exact List.map_id d

theorem dictSet_eq_appendChildren {d : List (String × DeptNode)} {p : String}
    {pn : DeptNode} {cs : List String} (hn : (d.map Prod.fst).Nodup)
    (hget : dictGet d p = some pn) :
    dictSet d p { pn with children := pn.children ++ cs } = appendChildren d p cs := by
  have hmem : dictMem d p = true := by
    rw [dictMem, hget]
    rfl
  rw [dictSet, if_pos hmem, appendChildren]
  apply List.map_congr_left
  intro kv hkv
  by_cases h : kv.1 = p
  · rw [if_pos h, if_pos h]
    have : dictGet d kv.1 = some kv.2 := dictGet_of_mem hn (by
      obtain ⟨k, v⟩ := kv
      exact hkv)
    rw [h, hget] at this
    have hv : pn = kv.2 := Option.some.inj this
    rw [← hv, ← h]
  · rw [if_neg h, if_neg h]

theorem add_attach {s : State} {nm p hd : String} {emp : Int} {bud pf : Rat}
    (hnm : nm ∉ keys s) (hp : p ∈ keys s) (hpe : p ≠ "")
    (hnd : (keys s).Nodup) :
    (s.add nm (some p) hd emp bud pf).1 =
      ⟨s.root, appendChildren s.nodes p [nm] ++ [(nm, ⟨nm, hd, emp, bud, pf, []⟩)]⟩ := by
  obtain ⟨pn, hpn⟩ := exists_dictGet_of_mem_keys hp
  have hmem : ¬ dictMem s.nodes nm = true := by
    rw [dictMem_iff]
    exact hnm
  have hpnm : p ≠ nm := fun hc => hnm (hc ▸ hp)
  rw [State.add, if_neg hmem]
  have hset : dictSet s.nodes nm ⟨nm, hd, emp, bud, pf, []⟩ =
      s.nodes ++ [(nm, ⟨nm, hd, emp, bud, pf, []⟩)] := by
    rw [dictSet, if_neg hmem]
  simp only [hset]
  rw [show (if p = "" then _ else _) = _ from if_neg hpe]
  have hget1 : dictGet (s.nodes ++ [(nm, ⟨nm, hd, emp, bud, pf, []⟩)]) p = some pn := by
    rw [dictGet_append_single_ne hpnm]
    exact hpn
  simp only [hget1]
  have hnd1 : ((s.nodes ++ [(nm, (⟨nm, hd, emp, bud, pf, []⟩ : DeptNode))]).map
      Prod.fst).Nodup := by
    rw [List.map_append]
    apply List.Nodup.append hnd (by simp)
    intro a ha hb
    simp at hb
    exact hnm (hb ▸ ha)
  have hstep := @dictSet_eq_appendChildren _ _ _ [nm] hnd1 hget1
  rw [hstep, appendChildren_append]
  have hlast : appendChildren [(nm, (⟨nm, hd, emp, bud, pf, []⟩ : DeptNode))] p [nm] =
      [(nm, ⟨nm, hd, emp, bud, pf, []⟩)] :=
    appendChildren_of_not_mem (by simpa using hpnm)
  rw [hlast]

theorem buildTreeList_spec :
    ∀ (n : Nat) (ts : List DTree) (p : String) (s : State),
      (DTree.namesList ts).length ≤ n →
      DTree.solidList ts = true →
      (keys s ++ DTree.namesList ts).Nodup →
      "" ∉ DTree.namesList ts →
      p ∈ keys s → p ≠ "" →
      buildTreeList ts (some p) s =
        ⟨s.root, appendChildren s.nodes p (rootNames ts) ++ DTree.entriesList ts⟩ := by
  intro n
  induction n using Nat.strong_induction_on with
  | _ n ih =>
  intro ts p s hlen hsolid hnd hne hp hpe
  match ts with
  | [] =>
      rw [buildTreeList]
      simp only [rootNames, List.map_nil, DTree.entriesList, appendChildren_nil,
        List.append_nil]
  | DTree.empty :: ts =>
      rw [DTree.solidList, DTree.solid] at hsolid
      simp at hsolid
  | DTree.node nm hd emp bud pf cs :: ts =>
      have hnl : DTree.namesList (DTree.node nm hd emp bud pf cs :: ts) =
          (nm :: DTree.namesList cs) ++ DTree.namesList ts := by
        rw [namesList_cons, names_node]
      rw [hnl] at hlen hnd hne
      rw [DTree.solidList, Bool.and_eq_true, DTree.solid] at hsolid
      obtain ⟨hsolcs, hsolts⟩ := hsolid
      have hdisj := List.disjoint_of_nodup_append hnd
      have hndk : (keys s).Nodup := List.Nodup.of_append_left hnd
      have hnm : nm ∉ keys s := fun h => hdisj h (by simp)
      have hnme : nm ≠ "" := by
        intro h
        exact hne (by rw [← h]; simp)
      have hlen' : 1 + (DTree.namesList cs).length + (DTree.namesList ts).length ≤ n := by
        rw [List.length_append, List.length_cons] at hlen
        omega
      rw [buildTreeList, buildTree, add_attach hnm hp hpe hndk]
      have hkeys1 : keys (⟨s.root, appendChildren s.nodes p [nm] ++
          [(nm, ⟨nm, hd, emp, bud, pf, []⟩)]⟩ : State) = keys s ++ [nm] := by
        show (appendChildren s.nodes p [nm] ++ [(nm, _)]).map Prod.fst = _
        rw [List.map_append, map_fst_appendChildren]
        rfl
      have hnd1 : (keys (⟨s.root, appendChildren s.nodes p [nm] ++
          [(nm, ⟨nm, hd, emp, bud, pf, []⟩)]⟩ : State) ++ DTree.namesList cs).Nodup := by
        rw [hkeys1, ← List.append_cons]
        refine List.Nodup.sublist ?_ hnd
        exact List.Sublist.append_left (List.sublist_append_left _ _) _
      have hne1 : "" ∉ DTree.namesList cs := fun h =>
        hne (List.mem_append.2 (Or.inl (List.mem_cons.2 (Or.inr h))))
      have r1 := ih (n - 1) (by omega) cs nm
        ⟨s.root, appendChildren s.nodes p [nm] ++ [(nm, ⟨nm, hd, emp, bud, pf, []⟩)]⟩
        (by omega) hsolcs hnd1 hne1 (by rw [hkeys1]; simp) hnme
      rw [r1]
      have hsecond : appendChildren [(nm, (⟨nm, hd, emp, bud, pf, []⟩ : DeptNode))] nm
          (rootNames cs) = [(nm, ⟨nm, hd, emp, bud, pf, rootNames cs⟩)] := by
        simp [appendChildren]
      have hnodes2 : appendChildren (appendChildren s.nodes p [nm] ++
            [(nm, (⟨nm, hd, emp, bud, pf, []⟩ : DeptNode))]) nm (rootNames cs) ++
            DTree.entriesList cs =
          appendChildren s.nodes p [nm] ++
            DTree.entries (DTree.node nm hd emp bud pf cs) := by
        rw [appendChildren_append, hsecond,
          appendChildren_of_not_mem (by rw [map_fst_appendChildren]; exact hnm),
          DTree.entries, List.append_assoc, List.singleton_append]
      rw [show (⟨(⟨s.root, appendChildren s.nodes p [nm] ++
            [(nm, (⟨nm, hd, emp, bud, pf, []⟩ : DeptNode))]⟩ : State).root,
          appendChildren (appendChildren s.nodes p [nm] ++
            [(nm, (⟨nm, hd, emp, bud, pf, []⟩ : DeptNode))]) nm (rootNames cs) ++
            DTree.entriesList cs⟩ : State) =
        ⟨s.root, appendChildren s.nodes p [nm] ++
          DTree.entries (DTree.node nm hd emp bud pf cs)⟩ from by rw [hnodes2]]
      have hkeys2 : keys (⟨s.root, appendChildren s.nodes p [nm] ++
          DTree.entries (DTree.node nm hd emp bud pf cs)⟩ : State) =
          keys s ++ (nm :: DTree.namesList cs) := by
        show (appendChildren s.nodes p [nm] ++ _).map Prod.fst = _
        rw [List.map_append, map_fst_appendChildren, DTree.entries, List.map_cons]
        rw [show (DTree.entriesList cs).map Prod.fst = DTree.namesList cs from rfl]
        rfl
      have hnd2 : (keys (⟨s.root, appendChildren s.nodes p [nm] ++
          DTree.entries (DTree.node nm hd emp bud pf cs)⟩ : State) ++
          DTree.namesList ts).Nodup := by
        rw [hkeys2, List.append_assoc]
        exact hnd
      have hne2 : "" ∉ DTree.namesList ts := fun h => hne (List.mem_append.2 (Or.inr h))
      have r2 := ih (n - 1) (by omega) ts p
        ⟨s.root, appendChildren s.nodes p [nm] ++
          DTree.entries (DTree.node nm hd emp bud pf cs)⟩
        (by omega) hsolts hnd2 hne2 (by rw [hkeys2]; exact List.mem_append.2 (Or.inl hp))
        hpe
      rw [r2]
      have hpne : p ∉ (DTree.entries (DTree.node nm hd emp bud pf cs)).map Prod.fst := by
        rw [DTree.entries, List.map_cons]
        rw [show (DTree.entriesList cs).map Prod.fst = DTree.namesList cs from rfl]
        intro hmem
        exact hdisj hp (List.mem_append.2 (Or.inl hmem))
      show (⟨s.root, appendChildren (appendChildren s.nodes p [nm] ++
          DTree.entries (DTree.node nm hd emp bud pf cs)) p (rootNames ts) ++
          DTree.entriesList ts⟩ : State) = _
      rw [appendChildren_append, appendChildren_of_not_mem hpne,
        appendChildren_appendChildren]
      rw [show ([nm] ++ rootNames ts) =
        rootNames (DTree.node nm hd emp bud pf cs :: ts) from by
          simp [rootNames, rootName]]
      rw [DTree.entriesList, List.append_assoc]

theorem add_root_empty {nm hd : String} {emp : Int} {bud pf : Rat} :
    (State.empty.add nm none hd emp bud pf).1 =
      ⟨some nm, [(nm, ⟨nm, hd, emp, bud, pf, []⟩)]⟩ := rfl

/-- Rebuilding a solid, duplicate-free serialized tree from scratch produces
exactly the preorder entry list with the top label as root. -/
theorem buildRoot {t : DTree} (hs : t.solid = true) (hnd : t.names.Nodup)
    (hne : "" ∉ t.names) :
    buildTree t none State.empty = ⟨some (rootName t), t.entries⟩ := by
  match t with
  | DTree.empty => rw [DTree.solid] at hs; simp at hs
  | DTree.node nm hd emp bud pf cs =>
      rw [DTree.solid] at hs
      rw [names_node] at hnd hne
      have hnme : nm ≠ "" := by
        intro h
        exact hne (by rw [← h]; simp)
      rw [buildTree, add_root_empty]
      have hspec := buildTreeList_spec (DTree.namesList cs).length cs nm
        ⟨some nm, [(nm, ⟨nm, hd, emp, bud, pf, []⟩)]⟩ le_rfl hs
        (by
          show ([nm] ++ DTree.namesList cs).Nodup
          rw [List.singleton_append]
          exact hnd)
        (fun h => hne (List.mem_cons.2 (Or.inr h)))
        (by show nm ∈ [nm]; simp) hnme
      rw [hspec]
      have hsecond : appendChildren [(nm, (⟨nm, hd, emp, bud, pf, []⟩ : DeptNode))] nm
          (rootNames cs) = [(nm, ⟨nm, hd, emp, bud, pf, rootNames cs⟩)] := by
        simp [appendChildren]
      show (⟨some nm, appendChildren [(nm, (⟨nm, hd, emp, bud, pf, []⟩ : DeptNode))] nm
          (rootNames cs) ++ DTree.entriesList cs⟩ : State) = _
      rw [hsecond, List.singleton_append, DTree.entries]
      rfl

/-- With distinct keys, a dictionary containing every entry of a solid
serialized tree reproduces that tree when serialized from its top label,
for any fuel at least the number of entries. -/
theorem toDictNode_entries :
    ∀ (fuel : Nat) (s : State) (t : DTree), t.solid = true →
      (s.nodes.map Prod.fst).Nodup → (∀ e ∈ t.entries, e ∈ s.nodes) →
      t.entries.length ≤ fuel → toDictNode s fuel (rootName t) = t := by
  intro fuel
  induction fuel with
  | zero =>
      intro s t hs hnd hsub hlen
      match t with
      | DTree.empty => rw [DTree.solid] at hs; simp at hs
      | DTree.node nm hd emp bud pf cs =>
          rw [DTree.entries, List.length_cons] at hlen
          omega
  | succ f ihf =>
      intro s t hs hnd hsub hlen
      match t with
      | DTree.empty => rw [DTree.solid] at hs; simp at hs
      | DTree.node nm hd emp bud pf cs =>
          rw [DTree.solid] at hs
          rw [DTree.entries] at hsub hlen
          have hroot : dictGet s.nodes nm =
              some ⟨nm, hd, emp, bud, pf, rootNames cs⟩ :=
            dictGet_of_mem hnd (hsub _ (List.mem_cons.2 (Or.inl rfl)))
          show toDictNode s (f + 1) nm = _
          rw [toDictNode, hroot]
          have hmap : (rootNames cs).map (toDictNode s f) = cs := by
            rw [rootNames, List.map_map]
            have hcong : ∀ c ∈ cs, (toDictNode s f ∘ rootName) c = id c := by
              intro c hc
              rw [Function.comp_apply, id]
              exact ihf s c ((solidList_iff cs).1 hs c hc) hnd
                (fun e he => hsub e (List.mem_cons.2 (Or.inr
                  (entries_mem_of_mem hc e he))))
                (by
                  have h1 := entries_sublen_of_mem hc
                  rw [List.length_cons] at hlen
                  omega)
            rw [List.map_congr_left hcong, List.map_id]
          show DTree.node nm hd emp bud pf ((rootNames cs).map (toDictNode s f)) = _
          rw [hmap]

theorem chain_prepend {s : State} {a b y : String} {l : List String}
    (hab : childOf s a b) (hch : Chain s b y l) : Chain s a y (b :: l) := by
  induction hch with
  | refl => exact (List.nil_append [b]) ▸ Chain.step Chain.refl hab
  | @step c d m hc hcd ihm =>
      exact (List.cons_append b m [d]) ▸ Chain.step ihm hcd

theorem chain_suffix {s : State} {x b : String} {L : List String}
    (hch : Chain s x b L) : ∀ (m₁ : List String) (v : String) (m₂ : List String),
      L = m₁ ++ v :: m₂ → Chain s v b m₂ := by
  induction hch with
  | refl =>
      intro m₁ v m₂ h
      exact absurd h (by simp)
  | @step c d m hc hcd ih =>
      intro m₁ v m₂ h
      rcases List.eq_nil_or_concat m₂ with h2 | ⟨m₂', w, h2⟩
      · subst h2
        obtain ⟨hm, hv⟩ := List.append_inj' h (by simp)
        obtain rfl : d = v := by simpa using hv
        exact Chain.refl
      · subst h2
        simp only [List.concat_eq_append] at h ⊢
        have h' : m ++ [d] = (m₁ ++ v :: m₂') ++ [w] := by
          rw [h]
          simp
        obtain ⟨hm, hdw⟩ := List.append_inj' h' (by simp)
        obtain rfl : d = w := by simpa using hdw
        exact Chain.step (ih m₁ v m₂' hm) hcd

theorem chain_mem_chain {s : State} {x y : String} {l : List String}
    (hch : Chain s x y l) : ∀ v ∈ l, ∃ l', l' ≠ [] ∧ Chain s x v l' := by
  induction hch with
  | refl => simp
  | @step b c m hc hcb ih =>
      intro v hv
      rcases List.mem_append.1 hv with h | h
      · exact ih v h
      · have hvc : v = c := by simpa using h
        exact ⟨m ++ [c], by simp, by rw [hvc]; exact Chain.step hc hcb⟩

theorem chain_nonempty_target {s : State} {x y : String} {l : List String}
    (hch : Chain s x y l) (hne : l ≠ []) : y ∈ allChildNames s := by
  cases hch with
  | refl => exact absurd rfl hne
  | @step b c m hc hcb => exact childOf_mem_allChildNames hcb

/-- Without cycles a chain never revisits a name, its start included. -/
theorem chain_snoc_nodup {s : State} (ha : Acyclic s) {x y : String}
    {l : List String} (hch : Chain s x y l) : (x :: l).Nodup := by
  induction hch with
  | refl => simp
  | @step b c m hc hcb ih =>
      have hcx : c ∉ x :: m := by
        intro hmem
        rcases List.mem_cons.1 hmem with h | h
        · have h2 := Chain.step hc hcb
          rw [h] at h2
          have := ha x _ h2
          simp at this
        · obtain ⟨m₁, m₂, hm⟩ := List.append_of_mem h
          rw [hm] at hc
          have h2 := Chain.step (chain_suffix hc m₁ c m₂ rfl) hcb
          have := ha c _ h2
          simp at this
      rw [show x :: (m ++ [c]) = (x :: m) ++ [c] from (List.cons_append x m [c]).symm]
      exact List.nodup_append.2 ⟨ih, by simp,
        fun a hax hac => hcx (by rw [show a = c from by simpa using hac] at hax; exact hax)⟩

/-- Without cycles, chains out of a registered name are strictly shorter
than the node count plus one: the visited names are distinct and all
registered. -/
theorem chain_length_bound {s : State} (ha : Acyclic s)
    (h6 : ∀ c ∈ allChildNames s, c ∈ keys s) {x : String} (hx : x ∈ keys s)
    {y : String} {l : List String} (hch : Chain s x y l) :
    l.length < s.nodes.length + 1 := by
  have hnd := chain_snoc_nodup ha hch
  have hsub : ∀ v ∈ x :: l, v ∈ keys s := by
    intro v hv
    rcases List.mem_cons.1 hv with h | h
    · exact h ▸ hx
    · obtain ⟨l', hl'ne, hch'⟩ := chain_mem_chain hch v h
      exact h6 v (chain_nonempty_target hch' hl'ne)
  have hsp := (List.Nodup.subperm hnd hsub).length_le
  have hkl : (keys s).length = s.nodes.length := by rw [keys, List.length_map]
  rw [List.length_cons] at hsp
  omega

/-- Under the structural invariant and forward-pointing child references,
chains between two fixed names are unique from any starting name. -/
theorem chain_from_unique {s : State} (hn : (keys s).Nodup)
    (hu : (allChildNames s).Nodup) (ha : Acyclic s) :
    ∀ (n : Nat) {x y : String} (l₁ l₂ : List String), l₁.length ≤ n →
      Chain s x y l₁ → Chain s x y l₂ → l₁ = l₂ := by
  intro n
  induction n with
  | zero =>
      intro x y l₁ l₂ hlen h₁ h₂
      cases h₁ with
      | refl => exact (ha x l₂ h₂).symm
      | @step b c m hc hcb => simp at hlen
  | succ k ihk =>
      intro x y l₁ l₂ hlen h₁ h₂
      cases h₁ with
      | refl => exact (ha x l₂ h₂).symm
      | @step b c m hc hcb =>
          cases h₂ with
          | refl => exact ha x (m ++ [x]) (Chain.step hc hcb)
          | @step b' c' m' hc' hcb' =>
              have hbb : b = b' := childOf_unique hn hu hcb hcb'
              subst hbb
              have hmm : m = m' := by
                apply ihk m m' _ hc hc'
                rw [List.length_append] at hlen
                simp at hlen
                omega
              rw [hmm]

theorem names_mem_chain {s : State} (hnames : ∀ kv ∈ s.nodes, kv.2.name = kv.1) :
    ∀ (fuel : Nat) (x y : String), y ∈ (toDictNode s fuel x).names →
      ∃ l, Chain s x y l := by
  intro fuel
  induction fuel with
  | zero =>
      intro x y hy
      rw [toDictNode, names_empty] at hy
      simp at hy
  | succ f ihf =>
      intro x y hy
      rcases hg : dictGet s.nodes x with _ | n
      · rw [toDictNode, hg, names_empty] at hy
        simp at hy
      · rw [toDictNode, hg, names_node] at hy
        have hname : n.name = x := hnames (x, n) (dictGet_mem hg)
        rcases List.mem_cons.1 hy with hy | hy
        · exact ⟨[], hy ▸ hname ▸ Chain.refl⟩
        · rw [namesList_eq_flatten, List.map_map, List.mem_flatten] at hy
          obtain ⟨L, hL, hyL⟩ := hy
          obtain ⟨c, hc, hLc⟩ := List.mem_map.1 hL
          rw [← hLc] at hyL
          obtain ⟨l, hl⟩ := ihf c y hyL
          exact ⟨c :: l, chain_prepend ⟨n, hg, hc⟩ hl⟩

theorem toDictNode_names_nodup {s : State} (hn : (keys s).Nodup)
    (hu : (allChildNames s).Nodup) (ha : Acyclic s)
    (hnames : ∀ kv ∈ s.nodes, kv.2.name = kv.1) :
    ∀ (fuel : Nat) (x : String), ((toDictNode s fuel x).names).Nodup := by
  intro fuel
  induction fuel with
  | zero =>
      intro x
      rw [toDictNode, names_empty]
      exact List.nodup_nil
  | succ f ihf =>
      intro x
      rcases hg : dictGet s.nodes x with _ | n
      · rw [toDictNode, hg, names_empty]
        exact List.nodup_nil
      · rw [toDictNode, hg, names_node, namesList_eq_flatten, List.map_map]
        have hname : n.name = x := hnames (x, n) (dictGet_mem hg)
        refine List.Nodup.cons ?_ ?_
        · intro hmem
          rw [List.mem_flatten] at hmem
          obtain ⟨L, hL, hyL⟩ := hmem
          obtain ⟨c, hc, hLc⟩ := List.mem_map.1 hL
          rw [← hLc] at hyL
          obtain ⟨l, hl⟩ := names_mem_chain hnames f c n.name hyL
          rw [hname] at hl
          have hch : Chain s x x (c :: l) := chain_prepend ⟨n, hg, hc⟩ hl
          have := chain_from_unique hn hu ha (c :: l).length (c :: l) [] le_rfl hch
            Chain.refl
          simp at this
        · rw [List.nodup_flatten]
          constructor
          · intro L hL
            obtain ⟨c, _, hLc⟩ := List.mem_map.1 hL
            rw [← hLc]
            exact ihf c
          · rw [List.pairwise_map]
            have hcn : n.children.Nodup := children_nodup hu (dictGet_mem hg)
            refine List.Pairwise.imp_of_mem ?_ hcn
            intro c₁ c₂ hm₁ hm₂ hne
            intro y hy₁ hy₂
            obtain ⟨l₁, hl₁⟩ := names_mem_chain hnames f c₁ y hy₁
            obtain ⟨l₂, hl₂⟩ := names_mem_chain hnames f c₂ y hy₂
            have hch₁ : Chain s x y (c₁ :: l₁) := chain_prepend ⟨n, hg, hm₁⟩ hl₁
            have hch₂ : Chain s x y (c₂ :: l₂) := chain_prepend ⟨n, hg, hm₂⟩ hl₂
            have := chain_from_unique hn hu ha (c₁ :: l₁).length (c₁ :: l₁) (c₂ :: l₂)
              le_rfl hch₁ hch₂
            exact hne (by injection this)

theorem toDictNode_solid {s : State}
    (hclosed : ∀ c ∈ allChildNames s, c ∈ keys s) :
    ∀ (fuel : Nat) (x : String), x ∈ keys s →
      (∀ y l, Chain s x y l → l.length < fuel) →
      (toDictNode s fuel x).solid = true := by
  intro fuel
  induction fuel with
  | zero =>
      intro x hx hb
      exact absurd (hb x [] Chain.refl) (by simp)
  | succ f ihf =>
      intro x hx hb
      obtain ⟨n, hg⟩ := exists_dictGet_of_mem_keys hx
      rw [toDictNode, hg, DTree.solid, solidList_iff]
      intro t ht
      obtain ⟨c, hc, htc⟩ := List.mem_map.1 ht
      have hcall : c ∈ allChildNames s := mem_allChildNames_of_mem (dictGet_mem hg) hc
      rw [← htc]
      refine ihf c (hclosed c hcall) ?_
      intro y l hch
      have := hb y (c :: l) (chain_prepend ⟨n, hg, hc⟩ hch)
      rw [List.length_cons] at this
      omega

theorem chain_target_mem {s : State} {x y : String} {l : List String}
    (h : Chain s x y l) : y = x ∨ y ∈ allChildNames s := by
  cases h with
  | refl => exact Or.inl rfl
  | @step b c m hc hcb => exact Or.inr (childOf_mem_allChildNames hcb)

/-- C6: serializing, rebuilding by re-running `add` depth-first (root first,
each child with its parent's name) from an empty tree, and serializing again
reproduces the original serialization, for every state satisfying the
structural invariant, free of child-link cycles, and with no department
named by the empty string — in particular for the reordered mappings that
renames and reparents leave behind. -/
theorem C6_roundtrip :
    ∀ s : State, Inv s → Acyclic s → "" ∉ keys s →
      State.to_dict (buildTree s.to_dict none State.empty) = s.to_dict := by
  intro s hInv ha hemp
  obtain ⟨h1, h2, h3, h4, h5, h6⟩ := hInv
  rcases hr : s.root with _ | r
  · have ht : s.to_dict = DTree.empty := by rw [State.to_dict, hr]
    rw [ht, buildTree]
    rfl
  · have hrk : r ∈ keys s := h3 r (by rw [hr]; simp)
    have ht : s.to_dict = toDictNode s (s.nodes.length + 1) r := by
      rw [State.to_dict, hr]
    have hsol : (s.to_dict).solid = true := by
      rw [ht]
      exact toDictNode_solid h6 _ r hrk
        (fun y l hch => chain_length_bound ha h6 hrk hch)
    have hnd : (s.to_dict).names.Nodup := by
      rw [ht]
      exact toDictNode_names_nodup h1 h5 ha h2 _ r
    have hne : "" ∉ (s.to_dict).names := by
      rw [ht]
      intro hmem
      obtain ⟨l, hl⟩ := names_mem_chain h2 _ r "" hmem
      rcases chain_target_mem hl with h | h
      · exact hemp (by rw [h]; exact hrk)
      · exact hemp (h6 _ h)
    rw [buildRoot hsol hnd hne]
    exact toDictNode_entries ((s.to_dict).entries.length + 1)
      ⟨some (rootName (s.to_dict)), (s.to_dict).entries⟩ (s.to_dict)
      hsol hnd (fun e he => he) (Nat.le_succ _)

/-- The state after add("A"); add("B", parent="A"); edit("A", new_name="C"):
the rename moves the renamed entry to the end of the mapping, so the child
"B" precedes its parent "C" in insertion order. -/
def exRen : State := (exAB.edit "A" (some "C") none none none none none).1

theorem acyclic_exRen : Acyclic exRen := by
  have hE : exRen = ⟨some "C", [("B", ⟨"B", "", 0, 0, 0, []⟩),
      ("C", ⟨"C", "", 0, 0, 0, ["B"]⟩)]⟩ := by decide
  rw [hE]
  intro x l hch
  cases hch with
  | refl => rfl
  | @step b c m hc hcb =>
      obtain ⟨n, hg, hcm⟩ := hcb
      have hbc : b = "C" ∧ n = ⟨"C", "", 0, 0, 0, ["B"]⟩ := by
        by_cases h1 : ("B" : String) = b
        · rw [dictGet, if_pos h1] at hg
          obtain rfl : n = ⟨"B", "", 0, 0, 0, []⟩ := (Option.some.inj hg).symm
          simp at hcm
        · rw [dictGet, if_neg h1] at hg
          by_cases h2 : ("C" : String) = b
          · rw [dictGet, if_pos h2] at hg
            exact ⟨h2.symm, (Option.some.inj hg).symm⟩
          · rw [dictGet, if_neg h2, dictGet] at hg
            simp at hg
      obtain ⟨rfl, rfl⟩ := hbc
      obtain rfl : x = "B" := by simpa using hcm
      rcases chain_target_mem hc with h | h
      · exact absurd h (by decide)
      · exact absurd h (by decide)

/-- Witness for C6 after add("A"); add("B", parent="A");
edit("A", new_name="C"): the renamed entry sits at the end of the mapping
(child before parent in insertion order), and the round trip holds. -/
theorem C6_roundtrip_witness :
    Inv exRen ∧ Acyclic exRen ∧ "" ∉ keys exRen ∧
      State.to_dict (buildTree (State.to_dict exRen) none State.empty) =
        State.to_dict exRen :=
  ⟨by decide, acyclic_exRen, by decide,
   C6_roundtrip exRen (by decide) acyclic_exRen (by decide)⟩
